import Mathlib

/-!
Verification of the equation-solver backend (`src/backend/app.py`).

The Python file is a thin layer over the SymPy library:

  * `parse_equation` replaces `^` by `**`, splits the input on the first `=`,
    parses both sides with SymPy's `parse_expr` using the
    `implicit_multiplication_application` transformation, and returns
    `left - right` (SymPy expressions auto-evaluate on construction).
  * `solve_equation` takes the evaluation path (returning `["EVAL", simplify(e)]`)
    when the target variable is not among the free symbols, otherwise calls
    `sympy.solve`; when `solve` returns no solutions and the equation simplifies
    to `0` it returns `[S.Reals]`.
  * `format_solutions` renders the result string.
  * the Flask route `solve` trims and bounds the input and maps
    `SympifyError`/`ValueError`/`TypeError` to a 400 response and every other
    exception to a 500 response.

This file shallowly embeds that pipeline.  SymPy itself is an external
dependency, so its behaviour on the (rational-polynomial) fragment exercised by
the program is embedded here as well: the tokenizer / parser with implicit
multiplication, the automatic evaluation performed by `Add`/`Mul`/`Pow`
constructors (flattening, like-term collection with identical non-numeric
parts, numeric folding ­— crucially, *no* expansion of products or powers),
`simplify` as normalization to a canonical polynomial form, `solve` for
degree ≤ 2 polynomials with rational or Gaussian-rational roots returned in
SymPy's sorted order (ascending real part, then ascending imaginary part),
and `str` printing.  Machine floats appear only in `format_solutions`'s
`float(result) == int(float(result))` test; `float(...)` of an exact
rational is modelled faithfully as correctly rounded IEEE-754 binary64
(round to nearest, ties to even, subnormals and underflow to zero
included), with the `OverflowError` CPython raises when the rounded
magnitude reaches `2 ^ 1024` modelled as an uncaught exception — it is in
neither the formatter's `(ValueError, TypeError)` tuple nor the route's
`(SympifyError, ValueError, TypeError)` tuple, so it reaches the 500
handler.
-/

namespace EqApp

/-- Error kinds of the Python exceptions that can escape the pipeline.
`synErr` models a Python `SyntaxError` (raised by `eval` inside SymPy's
`parse_expr` on malformed expression text, e.g. text containing `=`;
`parse_expr` re-raises the original exception).  `tokErr` models a
`tokenize.TokenError` on unlexable text.  `sympErr`, `valErr`, `typErr`
model `SympifyError`, `ValueError`, `TypeError` — the three exception types
the Flask handler catches as invalid input.  `ovfErr` models the
`OverflowError` raised by `float(result)` (or by `int(...)` of an infinite
float) in `format_solutions` when the value rounds to magnitude `2 ^ 1024`
or beyond; it is caught neither by the formatter's inner
`except (ValueError, TypeError)` nor by the route's tuple. -/
inductive Err where
  | synErr
  | tokErr
  | sympErr
  | valErr
  | typErr
  | ovfErr
deriving DecidableEq

/-- Tokens produced by the Python tokenizer on the normalized input
(after `^` has been replaced by `**`). -/
inductive Tok where
  | num (q : ℚ)
  | ident (s : String)
  | plus
  | minus
  | star
  | slash
  | dstar
  | lparen
  | rparen
  | eqTok
deriving DecidableEq

/-- Raw expression tree, the direct result of parsing one side of the
equation before SymPy's constructors evaluate it.  Mirrors the Python AST
produced by `eval` on the transformed token string. -/
inductive Raw where
  | num (q : ℚ)
  | var (s : String)
  | add (a b : Raw)
  | sub (a b : Raw)
  | mul (a b : Raw)
  | div (a b : Raw)
  | pow (a b : Raw)
  | neg (a : Raw)
deriving DecidableEq

/-- Digit characters to their value. -/
def digitVal (c : Char) : ℕ := c.toNat - 48

/-- Value of a digit string. -/
def digitsToNat (l : List Char) : ℕ :=
  l.foldl (fun n c => 10 * n + digitVal c) 0

/-- Lexer over the normalized character list.  Recognizes integer and
decimal numeric literals, identifiers (letter or underscore followed by
letters / digits / underscores, as Python NAME tokens), the operators
`+ - * / **`, parentheses and `=`; whitespace is skipped; any other
character fails.  Fuel-based recursion (each step consumes at least one
character, so `length + 1` fuel always suffices). -/
def lexChars : ℕ → List Char → Except Err (List Tok)
  | 0, _ => .error .tokErr
  | _ + 1, [] => .ok []
  | f + 1, c :: cs =>
    if c.isWhitespace then lexChars f cs
    else if c.isDigit then
      let ip := (c :: cs).takeWhile Char.isDigit
      let r1 := (c :: cs).dropWhile Char.isDigit
      match r1 with
      | '.' :: r2 =>
        let fp := r2.takeWhile Char.isDigit
        let r3 := r2.dropWhile Char.isDigit
        let q : ℚ := (digitsToNat ip : ℚ) + (digitsToNat fp : ℚ) / (10 ^ fp.length : ℕ)
        (lexChars f r3).map (fun ts => .num q :: ts)
      | _ =>
        (lexChars f r1).map (fun ts => .num (digitsToNat ip : ℚ) :: ts)
    else if c.isAlpha ∨ c = '_' then
      let nm := (c :: cs).takeWhile (fun d => d.isAlpha ∨ d.isDigit ∨ d = '_')
      let r1 := (c :: cs).dropWhile (fun d => d.isAlpha ∨ d.isDigit ∨ d = '_')
      (lexChars f r1).map (fun ts => .ident ⟨nm⟩ :: ts)
    else if c = '+' then (lexChars f cs).map (.plus :: ·)
    else if c = '-' then (lexChars f cs).map (.minus :: ·)
    else if c = '*' then
      match cs with
      | '*' :: cs' => (lexChars f cs').map (.dstar :: ·)
      | _ => (lexChars f cs).map (.star :: ·)
    else if c = '/' then (lexChars f cs).map (.slash :: ·)
    else if c = '(' then (lexChars f cs).map (.lparen :: ·)
    else if c = ')' then (lexChars f cs).map (.rparen :: ·)
    else if c = '=' then (lexChars f cs).map (.eqTok :: ·)
    else .error .tokErr

/-- Does a token start a primary operand?  SymPy's
`_implicit_multiplication` transformation inserts a `*` token whenever a
completed operand (NAME, NUMBER or `)`) is directly followed by a NAME or
an opening parenthesis. -/
def startsOperand : Tok → Bool
  | .ident _ => true
  | .lparen => true
  | _ => false

mutual

/-- Additive level of the expression grammar (`+`/`-`, left associative). -/
def pAdd : ℕ → List Tok → Except Err (Raw × List Tok)
  | 0, _ => .error .synErr
  | f + 1, ts => do
    let (a, ts1) ← pMul f ts
    pAddLoop f a ts1

/-- Loop of the additive level. -/
def pAddLoop : ℕ → Raw → List Tok → Except Err (Raw × List Tok)
  | 0, _, _ => .error .synErr
  | f + 1, a, .plus :: ts => do
    let (b, ts1) ← pMul f ts
    pAddLoop f (.add a b) ts1
  | f + 1, a, .minus :: ts => do
    let (b, ts1) ← pMul f ts
    pAddLoop f (.sub a b) ts1
  | _ + 1, a, ts => .ok (a, ts)

/-- Multiplicative level (`*`, `/`, and implicit multiplication whenever the
next token can start a new operand without an intervening operator). -/
def pMul : ℕ → List Tok → Except Err (Raw × List Tok)
  | 0, _ => .error .synErr
  | f + 1, ts => do
    let (a, ts1) ← pUn f ts
    pMulLoop f a ts1

/-- Loop of the multiplicative level; the third arm is the implicit
multiplication insertion. -/
def pMulLoop : ℕ → Raw → List Tok → Except Err (Raw × List Tok)
  | 0, _, _ => .error .synErr
  | f + 1, a, .star :: ts => do
    let (b, ts1) ← pUn f ts
    pMulLoop f (.mul a b) ts1
  | f + 1, a, .slash :: ts => do
    let (b, ts1) ← pUn f ts
    pMulLoop f (.div a b) ts1
  | f + 1, a, ts => do
    match ts with
    | t :: _ =>
      if startsOperand t then do
        let (b, ts1) ← pUn f ts
        pMulLoop f (.mul a b) ts1
      else .ok (a, ts)
    | [] => .ok (a, ts)

/-- Unary level: prefix minus binds looser than exponentiation
(Python `factor ::= "-" factor | power`). -/
def pUn : ℕ → List Tok → Except Err (Raw × List Tok)
  | 0, _ => .error .synErr
  | f + 1, .minus :: ts => do
    let (a, ts1) ← pUn f ts
    .ok (.neg a, ts1)
  | f + 1, ts => pPow f ts

/-- Power level: right-associative `**` whose right operand is again a
unary expression (Python `power ::= primary ["**" factor]`). -/
def pPow : ℕ → List Tok → Except Err (Raw × List Tok)
  | 0, _ => .error .synErr
  | f + 1, ts => do
    let (a, ts1) ← pAtom f ts
    match ts1 with
    | .dstar :: ts2 => do
      let (b, ts3) ← pUn f ts2
      .ok (.pow a b, ts3)
    | _ => .ok (a, ts1)

/-- Primary operands: numbers, identifiers, parenthesized expressions.
Anything else (including a bare `=` token) is a syntax error, modelling the
`SyntaxError` raised by `eval` on the transformed token string. -/
def pAtom : ℕ → List Tok → Except Err (Raw × List Tok)
  | 0, _ => .error .synErr
  | _ + 1, .num q :: ts => .ok (.num q, ts)
  | _ + 1, .ident s :: ts => .ok (.var s, ts)
  | f + 1, .lparen :: ts => do
    let (a, ts1) ← pAdd f ts
    match ts1 with
    | .rparen :: ts2 => .ok (a, ts2)
    | _ => .error .synErr
  | _ + 1, _ => .error .synErr

end

/-- Evaluated SymPy expression.  `num` is a SymPy `Number` (the program's
fragment only produces exact `Integer`/`Rational` values, plus decimal
literals, all modelled as `ℚ`); `sym` is a `Symbol`; `add`/`mul`/`pow` are
the evaluated `Add`/`Mul`/`Pow` nodes (n-ary SymPy args are represented as
nested binary nodes; only the multiset of flattened arguments is ever
observed). -/
inductive SymExpr where
  | num (q : ℚ)
  | sym (s : String)
  | add (a b : SymExpr)
  | mul (a b : SymExpr)
  | pow (a b : SymExpr)
deriving DecidableEq

/-- Flattened argument list of a (possibly nested) `add` node, as SymPy's
`Add.flatten` sees it. -/
def flattenAdd : SymExpr → List SymExpr
  | .add a b => flattenAdd a ++ flattenAdd b
  | e => [e]

/-- Flattened argument list of a (possibly nested) `mul` node. -/
def flattenMul : SymExpr → List SymExpr
  | .mul a b => flattenMul a ++ flattenMul b
  | e => [e]

/-- Split an additive term into its numeric coefficient and the remaining
(non-numeric) factor list, as SymPy's `Expr.as_coeff_Mul` does when `Add`
collects like terms. -/
def splitTerm (e : SymExpr) : ℚ × List SymExpr :=
  match e with
  | .num q => (q, [])
  | .mul a b =>
    match flattenMul (.mul a b) with
    | .num q :: rest => (q, rest)
    | fs => (1, fs)
  | e => (1, [e])

/-- Upsert a coefficient into an association list keyed by the non-numeric
part of a term (first-occurrence order is kept). -/
def upsertTerm (acc : List (List SymExpr × ℚ)) (key : List SymExpr) (c : ℚ) :
    List (List SymExpr × ℚ) :=
  match acc with
  | [] => [(key, c)]
  | (k, c') :: r =>
    if k = key then (k, c' + c) :: r else (k, c') :: upsertTerm r key c

/-- Right-nested product of a factor list (empty product is `1`). -/
def buildMul : List SymExpr → SymExpr
  | [] => .num 1
  | [f] => f
  | f :: rest => .mul f (buildMul rest)

/-- Right-nested sum of a term list (empty sum is `0`). -/
def buildAdd : List SymExpr → SymExpr
  | [] => .num 0
  | [t] => t
  | t :: rest => .add t (buildAdd rest)

/-- Rebuild one collected additive term from its coefficient and factors
(SymPy keeps the numeric coefficient as the first `Mul` argument and drops
a coefficient of `1`). -/
def rebuildTerm (c : ℚ) (k : List SymExpr) : SymExpr :=
  if c = 1 then buildMul k else buildMul (.num c :: k)

/-- Evaluated n-ary addition: models SymPy's `Add.flatten`.  Arguments are
flattened, each term is split into coefficient and non-numeric part, like
terms (identical non-numeric parts) are collected by summing coefficients,
vanished terms are dropped, and the numeric constants are folded into a
single trailing constant.  No product or power is expanded. -/
def addEval (l : List SymExpr) : SymExpr :=
  let ts := l.foldr (fun e acc => flattenAdd e ++ acc) []
  let collected := ts.foldl (fun acc t =>
    let (c, k) := splitTerm t
    upsertTerm acc k c) []
  let cpart := collected.foldl (fun q p => if p.1 = [] then q + p.2 else q) (0 : ℚ)
  let terms := collected.foldr (fun p acc =>
    if p.1 = [] ∨ p.2 = 0 then acc else rebuildTerm p.2 p.1 :: acc) []
  buildAdd (terms ++ if cpart = 0 then [] else [.num cpart])

/-- Split a multiplicative factor into base and exponent, as SymPy's
`Expr.as_base_exp`. -/
def splitPow (e : SymExpr) : SymExpr × SymExpr :=
  match e with
  | .pow b x => (b, x)
  | e => (e, .num 1)

/-- Upsert a factor into an association list keyed by base, summing
exponents of equal bases (SymPy merges `x * x**2` into `x**3`); the
exponent sum itself is an evaluated `Add`. -/
def upsertBase (acc : List (SymExpr × SymExpr)) (b x : SymExpr) :
    List (SymExpr × SymExpr) :=
  match acc with
  | [] => [(b, x)]
  | (b', x') :: r =>
    if b' = b then (b', addEval [x', x]) :: r else (b', x') :: upsertBase r b x

/-- Rebuild a merged factor, dropping exponents `1` and factors with
exponent `0`. -/
def rebuildFactor (b x : SymExpr) : List SymExpr :=
  if x = .num 1 then [b] else if x = .num 0 then [] else [.pow b x]

/-- Evaluated n-ary multiplication: models SymPy's `Mul.flatten`.
Arguments are flattened, numeric factors are folded into a single leading
coefficient, factors with equal bases are merged by summing exponents, a
zero coefficient absorbs everything, and a coefficient of `1` is
dropped. -/
def mulEval (l : List SymExpr) : SymExpr :=
  let fs := l.foldr (fun e acc => flattenMul e ++ acc) []
  let coeff := fs.foldl (fun q f => match f with | .num c => q * c | _ => q) 1
  let rest := fs.filter (fun f => match f with | .num _ => false | _ => true)
  if coeff = 0 then .num 0
  else
    let merged := rest.foldl (fun acc f =>
      let (b, x) := splitPow f
      upsertBase acc b x) []
    let factors := merged.foldr (fun p acc => rebuildFactor p.1 p.2 ++ acc) []
    if coeff = 1 then buildMul factors
    else match factors with
      | [] => .num coeff
      | _ => .mul (.num coeff) (buildMul factors)

/-- Evaluated exponentiation: models SymPy's `Pow` constructor on the
program's fragment.  Rational base and integer exponent fold to an exact
rational (except `0` to a negative power); exponent `0` gives `1`,
exponent `1` gives the base, base `1` gives `1`; everything else is left
unevaluated. -/
def powEval (a b : SymExpr) : SymExpr :=
  match a, b with
  | .num q, .num x =>
    if q = 1 then .num 1
    else if x.den = 1 then
      if 0 ≤ x.num then .num (q ^ x.num.toNat)
      else if q = 0 then .pow (.num q) (.num x)
      else .num ((q ^ (-x.num).toNat)⁻¹)
    else .pow (.num q) (.num x)
  | .num q, b => if q = 1 then .num 1 else .pow (.num q) b
  | a, .num x =>
    if x = 1 then a else if x = 0 then .num 1 else .pow a (.num x)
  | a, b => .pow a b

/-- Evaluation of a raw parse tree into a SymPy expression: each Python
operator builds the corresponding SymPy node, whose constructor evaluates
(`a - b` is `Add(a, Mul(-1, b))`, `a / b` is `Mul(a, Pow(b, -1))`, `-a` is
`Mul(-1, a)`). -/
def autoEval : Raw → SymExpr
  | .num q => .num q
  | .var s => .sym s
  | .add a b => addEval [autoEval a, autoEval b]
  | .sub a b => addEval [autoEval a, mulEval [.num (-1), autoEval b]]
  | .mul a b => mulEval [autoEval a, autoEval b]
  | .div a b => mulEval [autoEval a, powEval (autoEval b) (.num (-1))]
  | .pow a b => powEval (autoEval a) (autoEval b)
  | .neg a => mulEval [.num (-1), autoEval a]

/-- Free symbols of an expression, as SymPy's `free_symbols` (membership is
all that is ever used, so a plain list without deduplication suffices). -/
def freeSymbols : SymExpr → List String
  | .num _ => []
  | .sym s => [s]
  | .add a b => freeSymbols a ++ freeSymbols b
  | .mul a b => freeSymbols a ++ freeSymbols b
  | .pow a b => freeSymbols a ++ freeSymbols b

/-- Injective numeric code of a string, used only to give monomials a
concrete total order for the canonical polynomial form. -/
def encStr (s : String) : ℕ :=
  s.data.foldr (fun c n => Nat.pair c.toNat n + 1) 0

/-- A monomial: an exponent list, one `(variable, exponent)` pair per
variable, canonically sorted (strictly descending variable codes, all
exponents positive). -/
abbrev Monom := List (String × ℕ)

/-- Numeric code of a monomial; the canonical polynomial form keeps
monomials in strictly descending code order, which places the constant
monomial (code `0`) last. -/
def encMonom (m : Monom) : ℕ :=
  m.foldr (fun p n => Nat.pair (Nat.pair (encStr p.1) p.2) n + 1) 0

/-- A polynomial in sparse canonical form: coefficient per monomial,
monomials strictly descending by code, no zero coefficients. -/
abbrev Poly := List (Monom × ℚ)

/-- Insert one variable-exponent pair into a canonical exponent list
(merging equal variables by adding exponents, dropping zero exponents). -/
def minsert (v : String) (k : ℕ) : Monom → Monom
  | [] => if k = 0 then [] else [(v, k)]
  | (v', k') :: r =>
    if k = 0 then (v', k') :: r
    else if encStr v' < encStr v then (v, k) :: (v', k') :: r
    else if encStr v < encStr v' then (v', k') :: minsert v k r
    else (v', k' + k) :: r

/-- Normalize an exponent list into canonical monomial form. -/
def mnorm (m : Monom) : Monom :=
  m.foldr (fun p acc => minsert p.1 p.2 acc) []

/-- Insert a term into a canonical polynomial (merging equal monomials by
adding coefficients, dropping zero coefficients). -/
def pinsert (m : Monom) (c : ℚ) : Poly → Poly
  | [] => if c = 0 then [] else [(m, c)]
  | (m', c') :: r =>
    if c = 0 then (m', c') :: r
    else if encMonom m' < encMonom m then (m, c) :: (m', c') :: r
    else if encMonom m < encMonom m' then (m', c') :: pinsert m c r
    else if c' + c = 0 then r else (m', c' + c) :: r

/-- Normalize a term list into canonical polynomial form. -/
def pnorm (p : Poly) : Poly :=
  p.foldr (fun t acc => pinsert t.1 t.2 acc) []

/-- Polynomial addition. -/
def padd (p q : Poly) : Poly := pnorm (p ++ q)

/-- Product of two monomials. -/
def mmul (m₁ m₂ : Monom) : Monom := mnorm (m₁ ++ m₂)

/-- Polynomial multiplication: normalized sum of all pairwise term
products. -/
def pmul (p q : Poly) : Poly :=
  pnorm (p.foldr (fun t acc =>
    q.foldr (fun u acc' => (mmul t.1 u.1, t.2 * u.2) :: acc') acc) [])

/-- The constant polynomial. -/
def constP (c : ℚ) : Poly := if c = 0 then [] else [([], c)]

/-- Polynomial power with natural exponent. -/
def ppow (p : Poly) : ℕ → Poly
  | 0 => constP 1
  | n + 1 => pmul (ppow p n) p

def addAux (pa pb : Option Poly) : Option Poly :=
  match pa, pb with
  | some pa, some pb => some (padd pa pb)
  | _, _ => none

def mulAux (pa pb : Option Poly) : Option Poly :=
  match pa, pb with
  | some pa, some pb => some (pmul pa pb)
  | _, _ => none

/-- Power case of `toPoly`: only a constant natural exponent keeps the
expression inside the polynomial fragment. -/
def powAux (b : SymExpr) (pa : Option Poly) : Option Poly :=
  match b, pa with
  | .num x, some pa =>
    if x.den = 1 ∧ 0 ≤ x.num then some (ppow pa x.num.toNat) else none
  | _, _ => none

/-- Interpret an expression as a polynomial with rational coefficients.
Returns `none` outside the polynomial fragment (symbolic, negative or
fractional exponents, division by a symbolic expression).  This is the
normal form underlying the model of SymPy's `simplify` on the program's
fragment: on polynomial input `simplify` returns an equivalent canonically
ordered collected form, and two expressions denote the same polynomial
function exactly when their forms agree. -/
def toPoly : SymExpr → Option Poly
  | .num q => some (constP q)
  | .sym s => some [([(s, 1)], 1)]
  | .add a b => addAux (toPoly a) (toPoly b)
  | .mul a b => mulAux (toPoly a) (toPoly b)
  | .pow a b => powAux b (toPoly a)

/-- Expression of one variable power of a canonical term (an exponent of
`1` renders as the bare symbol, as SymPy does). -/
def powFactor (p : String × ℕ) : SymExpr :=
  if p.2 = 1 then .sym p.1 else .pow (.sym p.1) (.num p.2)

/-- Expression of one canonical term. -/
def termExpr (m : Monom) (c : ℚ) : SymExpr :=
  if c = 1 then buildMul (m.map powFactor)
  else buildMul (.num c :: m.map powFactor)

/-- Expression of a canonical polynomial (a bare constant renders as a
`num` node, so that the program's `simplified == 0` test is the structural
comparison with `num 0`). -/
def ofPoly : Poly → SymExpr
  | [] => .num 0
  | [([], c)] => .num c
  | p => buildAdd (p.map (fun t => termExpr t.1 t.2))

/-- Model of SymPy's `simplify` on the program's fragment: normalization to
the canonical collected polynomial form; expressions outside the fragment
are returned unchanged. -/
def simplify (e : SymExpr) : SymExpr :=
  match toPoly e with
  | some p => ofPoly p
  | none => e

/-- Decimal digit character. -/
def digitChr (d : ℕ) : Char := Char.ofNat (48 + d)

/-- Decimal digit list of a natural number (fuel-based; `n + 1` fuel always
suffices since the argument is divided by ten at every step). -/
def natDigits : ℕ → ℕ → List Char → List Char
  | 0, _, acc => acc
  | f + 1, n, acc =>
    if n < 10 then digitChr n :: acc
    else natDigits f (n / 10) (digitChr (n % 10) :: acc)

/-- Decimal string of a natural number, as Python's `str`. -/
def natStr (n : ℕ) : String := ⟨natDigits (n + 1) n []⟩

/-- Decimal string of an integer, as Python's `str`. -/
def intStr (z : ℤ) : String :=
  if z < 0 then "-" ++ natStr z.natAbs else natStr z.natAbs

/-- String of a SymPy `Rational`/`Integer`: `p`, `-p`, `p/q` or `-p/q`. -/
def ratStr (q : ℚ) : String :=
  if q.den = 1 then intStr q.num else intStr q.num ++ "/" ++ natStr q.den

/-- Is a term of an evaluated expression negative for printing purposes
(SymPy's printer extracts a leading `-` from a negative numeric
coefficient)?  Returns the sign together with the unsigned term. -/
def termAbs (e : SymExpr) : Bool × SymExpr :=
  match e with
  | .num q => if q < 0 then (true, .num (-q)) else (false, .num q)
  | .mul a b =>
    match flattenMul (.mul a b) with
    | .num q :: rest =>
      if q < 0 then
        if q = -1 then (true, buildMul rest)
        else (true, buildMul (.num (-q) :: rest))
      else (false, .mul a b)
    | _ => (false, .mul a b)
  | e => (false, e)

mutual

/-- Atomic print of an expression (parenthesizing sums), as SymPy's `str`
printer does for `Mul`/`Pow` arguments.  Fuel-based recursion; the wrapper
`strE` supplies ample fuel (exhaustion returns `""`, never reached on the
shapes the program prints). -/
def strAtomF : ℕ → SymExpr → String
  | 0, _ => ""
  | _ + 1, .num q => if q.den = 1 ∧ 0 ≤ q.num then ratStr q else "(" ++ ratStr q ++ ")"
  | _ + 1, .sym s => s
  | f + 1, .pow a b => strAtomF f a ++ "**" ++ strAtomF f b
  | f + 1, .add a b => "(" ++ strEF f (.add a b) ++ ")"
  | f + 1, .mul a b => strEF f (.mul a b)

/-- Print of one unsigned multiplicative term: integer coefficients print
as `c*rest`, denominators print as `rest/d` (SymPy prints `x/2`,
`3*x/2`). -/
def strTermF : ℕ → SymExpr → String
  | 0, _ => ""
  | _ + 1, .num q => ratStr q
  | f + 1, .mul a b =>
    (match flattenMul (.mul a b) with
    | .num q :: rest =>
      let core := String.intercalate "*" (rest.map (strAtomF f))
      if q.den = 1 then intStr q.num ++ "*" ++ core
      else if q.num = 1 then core ++ "/" ++ natStr q.den
      else intStr q.num ++ "*" ++ core ++ "/" ++ natStr q.den
    | fs => String.intercalate "*" (fs.map (strAtomF f)))
  | f + 1, e => strAtomF f e

/-- Terms joined by ` + ` / ` - ` with the sign extracted from the
coefficient. -/
def strEF : ℕ → SymExpr → String
  | 0, _ => ""
  | f + 1, .add a b =>
    (match flattenAdd (.add a b) with
    | [] => "0"
    | t :: rest =>
      let p := termAbs t
      let head := (if p.1 then "-" else "") ++ strTermF f p.2
      rest.foldl (fun s u =>
        let p' := termAbs u
        s ++ (if p'.1 then " - " else " + ") ++ strTermF f p'.2) head)
  | f + 1, e =>
    let p := termAbs e
    (if p.1 then "-" else "") ++ strTermF f p.2

end

/-- Node count of an expression, used to bound the printer's recursion. -/
def sizeE : SymExpr → ℕ
  | .num _ => 1
  | .sym _ => 1
  | .add a b => sizeE a + sizeE b + 1
  | .mul a b => sizeE a + sizeE b + 1
  | .pow a b => sizeE a + sizeE b + 1

/-- Model of SymPy's `str` on the shapes produced by the simplifier. -/
def strE (e : SymExpr) : String := strEF (3 * sizeE e + 3) e

/-- Base-two logarithm (floor), fuel-based structural recursion agreeing
with `Nat.log2`. -/
def natLog2Go : ℕ → ℕ → ℕ
  | 0, _ => 0
  | f + 1, n => if n ≤ 1 then 0 else natLog2Go f (n / 2) + 1

/-- Base-two logarithm (floor). -/
def natLog2 (n : ℕ) : ℕ := natLog2Go n n

/-- The exact rational value `2 ^ e` for an integer exponent. -/
def qpow2 (e : ℤ) : ℚ :=
  if 0 ≤ e then ((2 ^ e.toNat : ℕ) : ℚ) else 1 / ((2 ^ (-e).toNat : ℕ) : ℚ)

/-- Floor of the base-two logarithm of the positive rational `n / d`:
the integer `e` with `2 ^ e ≤ n / d < 2 ^ (e + 1)`.  The candidate
`log2 n - log2 d` is off by at most one and is corrected by one exact
comparison. -/
def floorLog2 (n d : ℕ) : ℤ :=
  let e0 : ℤ := (natLog2 n : ℤ) - (natLog2 d : ℤ)
  if 0 ≤ e0 then
    if d * 2 ^ e0.toNat ≤ n then e0 else e0 - 1
  else
    if d ≤ n * 2 ^ (-e0).toNat then e0 else e0 - 1

/-- Round the nonnegative rational `n / d` to the nearest natural number,
ties to even — the rounding IEEE-754 round-to-nearest-even performs on the
infinitely precise quotient. -/
def rndNat (n d : ℕ) : ℕ :=
  let q := n / d
  let r := n % d
  if 2 * r < d then q else if d < 2 * r then q + 1 else if q % 2 = 0 then q else q + 1

/-- The IEEE-754 binary64 value nearest to the positive rational `n / d`
(`n, d ≥ 1`), as the exact rational it denotes: the quotient is scaled to
the precision grid of its binade (`2 ^ (e - 52)` for a normal binade `e`,
the fixed `2 ^ (-1074)` below the normal range, so subnormal rounding and
underflow to zero are included) and rounded to nearest, ties to even.
`none` models the `OverflowError` CPython raises when the rounded
magnitude reaches `2 ^ 1024`. -/
def floatPos (n d : ℕ) : Option ℚ :=
  let e := floorLog2 n d
  let u := max (e - 52) (-1074)
  let m := rndNat (n * 2 ^ (-u).toNat) (d * 2 ^ u.toNat)
  let v : ℚ := (m : ℚ) * qpow2 u
  if qpow2 1024 ≤ v then none else some v

/-- CPython's `float(...)` of an exact rational (SymPy `Integer` or
`Rational`): correctly rounded binary64, `none` on overflow
(`OverflowError`). -/
def floatOfRat (q : ℚ) : Option ℚ :=
  if q.num = 0 then some 0
  else if 0 < q.num then floatPos q.num.toNat q.den
  else Option.map (fun v => -v) (floatPos (-q.num).toNat q.den)

/-- Outcome of `float(result)` on an evaluation-path result. -/
inductive FloatCast where
  | val (v : ℚ)
  | overflow
  | typeErr
deriving DecidableEq

/-- `float(result)` on the simplified evaluation-path expression: a numeric
value converts (or overflows) per `floatOfRat`; a non-numeric expression —
on the program's fragment one containing free symbols, or a symbolic
power such as `2**0.5` that SymPy also ends up printing via `str` because
its float is not integral — raises `TypeError`, which the formatter's
inner handler catches. -/
def floatE : SymExpr → FloatCast
  | .num q =>
    match floatOfRat q with
    | some v => .val v
    | none => .overflow
  | _ => .typeErr

/-- A Gaussian-rational value `re + im*i`, the form of every root the
modelled solver produces. -/
abbrev GaussQ := ℚ × ℚ

/-- Newton iteration for the integer square root, fuel-based. -/
def isqrtGo : ℕ → ℕ → ℕ → ℕ
  | 0, _, g => g
  | f + 1, n, g =>
    let g' := (g + n / g) / 2
    if g' < g then isqrtGo f n g' else g

/-- Integer square root (floor); only the exactness test below relies on
its value, so the witness property `s * s = q` is checked, not assumed. -/
def isqrt (n : ℕ) : ℕ := if n ≤ 1 then n else isqrtGo (n + 1) n n

/-- Rational square root, when it exists. -/
def ratSqrt (q : ℚ) : Option ℚ :=
  if 0 ≤ q then
    let sn := isqrt q.num.toNat
    let sd := isqrt q.den
    if sn * sn = q.num.toNat ∧ sd * sd = q.den then some ((sn : ℚ) / (sd : ℚ))
    else none
  else none

/-- String of a purely imaginary SymPy value `b*I`, after the program's
`.replace("I", "i")`. -/
def imStr (b : ℚ) : String :=
  if b = 1 then "i"
  else if b = -1 then "-i"
  else if b.den = 1 then intStr b.num ++ "*i"
  else if b.num = 1 then "i/" ++ natStr b.den
  else if b.num = -1 then "-i/" ++ natStr b.den
  else intStr b.num ++ "*i/" ++ natStr b.den

/-- String of a root as SymPy prints it, after `.replace("I", "i")`. -/
def gaussStr (g : GaussQ) : String :=
  if g.2 = 0 then ratStr g.1
  else if g.1 = 0 then imStr g.2
  else if 0 < g.2 then ratStr g.1 ++ " + " ++ imStr g.2
  else ratStr g.1 ++ " - " ++ imStr (-g.2)

/-- Coefficient list `(degree, coefficient)` of a canonical polynomial
that is univariate in `v`; `none` if any monomial involves another
variable. -/
def univar (v : String) : Poly → Option (List (ℕ × ℚ))
  | [] => some []
  | ([], c) :: r =>
    match univar v r with
    | some l => some ((0, c) :: l)
    | none => none
  | ([(w, k)], c) :: r =>
    if w = v then
      match univar v r with
      | some l => some ((k, c) :: l)
      | none => none
    else none
  | _ => none

/-- Coefficient of degree `k`. -/
def coeffAt (l : List (ℕ × ℚ)) (k : ℕ) : ℚ :=
  l.foldr (fun p acc => if p.1 = k then p.2 else acc) 0

/-- Degree (0 for the zero polynomial). -/
def degOf (l : List (ℕ × ℚ)) : ℕ :=
  l.foldr (fun p acc => max p.1 acc) 0

/-- Model of `sympy.solve(e, v)` on the program's fragment: polynomial
equations of degree at most two in `v` whose roots are rational or
Gaussian rational.  SymPy returns solutions sorted by `default_sort_key`:
for the roots arising here that is ascending real part, and for conjugate
pairs the root with negative imaginary part first.  Degree-zero equations
(including `0`) yield no solutions.  `none` marks shapes outside the
modelled fragment (degree ≥ 3, irrational roots, parameters), where the
real library would return radical or parametric expressions. -/
def solveCoeffs (l : List (ℕ × ℚ)) : Option (List GaussQ) :=
  let d := degOf l
  if d = 0 then some []
  else if d = 1 then
    some [(-(coeffAt l 0) / coeffAt l 1, 0)]
  else if d = 2 then
    let a := coeffAt l 2
    let b := coeffAt l 1
    let c := coeffAt l 0
    let disc := b ^ 2 - 4 * a * c
    if disc = 0 then some [(-b / (2 * a), 0)]
    else if 0 < disc then
      match ratSqrt disc with
      | some s =>
        let r₁ := (-b - s) / (2 * a)
        let r₂ := (-b + s) / (2 * a)
        some [(min r₁ r₂, 0), (max r₁ r₂, 0)]
      | none => none
    else
      match ratSqrt (-disc) with
      | some s =>
        let im := |s / (2 * a)|
        some [(-b / (2 * a), -im), (-b / (2 * a), im)]
      | none => none
  else none

/-- Model of `sympy.solve(e, v)`: interpret the expression as a polynomial
univariate in `v` and solve it by degree dispatch (`solveCoeffs`). -/
def sympySolve (e : SymExpr) (v : String) : Option (List GaussQ) :=
  match toPoly e with
  | none => none
  | some p =>
    match univar v p with
    | none => none
    | some l => solveCoeffs l

/-- Result value of `solve_equation`: the Python function returns the
heterogeneous list `["EVAL", expr]`, the list `[S.Reals]`, or the list of
solutions from `sympy.solve`. -/
inductive SolveResult where
  | eval (e : SymExpr)
  | allReals
  | roots (rs : List GaussQ)
deriving DecidableEq

/-- Model of `solve_equation` (`src/backend/app.py`), given the already
parsed equation expression: if the target variable is not among the free
symbols, return the simplified expression on the evaluation path;
otherwise call `solve`; when `solve` returns no solutions and the equation
simplifies to `0`, return `AllReals`; otherwise return the solution list.
`none` is an input outside the modelled solver fragment. -/
def solveEquationE (e : SymExpr) (v : String) : Option SolveResult :=
  if v ∈ freeSymbols e then
    match sympySolve e v with
    | none => none
    | some [] =>
      if simplify e = .num 0 then some .allReals else some (.roots [])
    | some rs => some (.roots rs)
  else
    some (.eval (simplify e))

/-- Python's `sep.join(parts)` (for one part, the part itself, exactly as
the program's `formatted[0]` shortcut also yields). -/
def joinSep (sep : String) : List String → String
  | [] => ""
  | [s] => s
  | s :: rest => s ++ sep ++ joinSep sep rest

/-- Model of `format_solutions` (`src/backend/app.py`).  An empty solution
list prints `"No solution exists"`; the `["EVAL", result]` shape prints
`str(int(float(result)))` when the float round-trip lands on an integer
and `str(result).replace("I", "i")` otherwise; `[S.Reals]` prints the
hard-coded `"x can be any real number"`; a root list prints
`"x = <root>"` joined with `" or "` — the variable letter `x` is a literal
in the Python source.  On the evaluation path the `try` block runs
`float(result) == int(float(result))`: an integral float prints as
`str(int(float(result)))`, a non-integral float falls through to the
`str` path, a `TypeError` (non-numeric result) is caught by the inner
`except (ValueError, TypeError)` and also falls through to the `str`
path, and an `OverflowError` (`floatE` = `overflow`) escapes the
function. -/
def formatSolutions : SolveResult → Except Err String
  | .roots [] => .ok "No solution exists"
  | .eval e =>
    match floatE e with
    | .val v => if v.den = 1 then .ok (intStr v.num) else .ok (strE e)
    | .overflow => .error .ovfErr
    | .typeErr => .ok (strE e)
  | .allReals => .ok "x can be any real number"
  | .roots rs => .ok (joinSep " or " (rs.map (fun g => "x = " ++ gaussStr g)))

/-- Parse a complete expression string fragment (one side of the equation):
lex, parse, and require that no tokens remain (a trailing token — e.g. a
second `=` — is a `SyntaxError`, exactly as `eval` on the transformed
source fails).  Models SymPy's `parse_expr` up to (but not including) the
evaluation performed by expression constructors. -/
def parseRaw (s : String) : Except Err Raw := do
  let ts ← lexChars (s.data.length + 1) s.data
  let (a, rest) ← pAdd (4 * ts.length + 8) ts
  if rest = [] then .ok a else .error .synErr

/-- Python's `str.strip`: drop whitespace from both ends. -/
def strip (s : String) : String :=
  ⟨((s.data.dropWhile Char.isWhitespace).reverse.dropWhile Char.isWhitespace).reverse⟩

/-- Parse one side of the equation into an evaluated SymPy expression:
`parse_expr(side.strip(), transformations=...)`. -/
def parseSide (s : String) : Except Err SymExpr :=
  (parseRaw (strip s)).map autoEval

/-- Replace every `^` by `**`, character for character, as Python's
`equation_str.replace("^", "**")`. -/
def caretToPow (s : String) : String :=
  ⟨s.data.foldr (fun c acc => if c = '^' then '*' :: '*' :: acc else c :: acc) []⟩

/-- Split a string at the first `=`, as Python's
`equation_str.split("=", 1)`: everything before the first `=`, and
everything after it. -/
def splitEq (s : String) : String × String :=
  (⟨s.data.takeWhile (· ≠ '=')⟩, ⟨(s.data.dropWhile (· ≠ '=')).drop 1⟩)

/-- Model of `parse_equation` (`src/backend/app.py`): normalize `^`, and if
an `=` is present parse both sides and return `left - right` (evaluated by
SymPy's constructors), otherwise parse the whole string. -/
def parseEquation (s0 : String) : Except Err SymExpr :=
  let s := caretToPow s0
  if s.data.contains '=' then do
    let p := splitEq s
    let l ← parseSide p.1
    let r ← parseSide p.2
    .ok (addEval [l, mulEval [.num (-1), r]])
  else
    parseSide s

/-- Model of `solve_equation` on a raw input string (parse, then solve).
The inner `Option` is `none` for inputs outside the modelled solver
fragment. -/
def solveEquation (s v : String) : Except Err (Option SolveResult) :=
  (parseEquation s).map (fun e => solveEquationE e v)

/-- Full pipeline as the Flask route runs it: `solve_equation` then
`format_solutions`; an exception of either stage propagates. -/
def solveStr (s v : String) : Except Err (Option String) :=
  (solveEquation s v).bind (fun r =>
    match r with
    | none => .ok none
    | some res => (formatSolutions res).map some)

/-- Responses of the `/solve` route: HTTP 200 with the result text, HTTP
400 with an error message, HTTP 500 with an error message. -/
inductive ApiResult where
  | ok (body : String)
  | badRequest (msg : String)
  | serverError (msg : String)
deriving DecidableEq

/-- The exception types the Flask handler catches as invalid input:
`except (SympifyError, ValueError, TypeError)`.  A Python `SyntaxError`
(or a tokenizer error), and likewise the `OverflowError` escaping
`format_solutions`, is none of these, so it falls through to the
catch-all `except Exception`. -/
def caughtAsInvalid : Err → Bool
  | .sympErr => true
  | .valErr => true
  | .typErr => true
  | .synErr => false
  | .tokErr => false
  | .ovfErr => false

/-- Model of the `/solve` route (`src/backend/app.py`): trim the query
parameter, reject empty or overlong input with 400, run the pipeline, map
the caught exception types to 400 and every other failure to the generic
500 message.  Inputs outside the modelled solver fragment are mapped to
the 500 branch as well (they stand for answers this model does not
compute, not for a behaviour the theorems below rely on). -/
def solveRoute (equation0 : String) : ApiResult :=
  let equation := strip equation0
  if equation = "" then .badRequest "Missing \x27equation\x27 query parameter"
  else if 500 < equation.data.length then .badRequest "Equation too long (max 500 characters)"
  else
    match solveStr equation "x" with
    | .ok (some s) => .ok s
    | .ok none => .serverError "Failed to solve equation. Please try a simpler form."
    | .error k =>
      if caughtAsInvalid k then .badRequest "Invalid equation syntax. Please check your input."
      else .serverError "Failed to solve equation. Please try a simpler form."

/-! ### Canonicity of the polynomial normal form

The model of `simplify` normalizes to the sparse canonical form `Poly`.
The lemmas below show that every polynomial `toPoly` produces is canonical
(strictly descending monomial codes, no zero coefficients, canonical
monomials) and that the normalizers fix canonical input; idempotence of
`simplify` follows. -/

/-- Sort key of a monomial entry. -/
def mkey (p : String × ℕ) : ℕ := encStr p.1

/-- Canonical monomial: strictly descending variable codes, positive
exponents. -/
def MCanon (m : Monom) : Prop :=
  m.Pairwise (fun a b => mkey b < mkey a) ∧ ∀ p ∈ m, p.2 ≠ 0

/-- Sort key of a polynomial term. -/
def pkey (t : Monom × ℚ) : ℕ := encMonom t.1

/-- Canonical polynomial: strictly descending monomial codes, nonzero
coefficients, canonical monomials. -/
def PCanon (p : Poly) : Prop :=
  p.Pairwise (fun a b => pkey b < pkey a) ∧ ∀ t ∈ p, t.2 ≠ 0 ∧ MCanon t.1

theorem mem_minsert_key (v : String) (k : ℕ) (m : Monom) :
    ∀ p ∈ minsert v k m, mkey p = encStr v ∨ ∃ q ∈ m, mkey p = mkey q := by
  induction m with
  | nil =>
    intro p hp
    simp only [minsert] at hp
    split_ifs at hp
    · simp at hp
    · simp at hp
      subst hp
      exact .inl rfl
  | cons q r ih =>
    intro p hp
    rcases q with ⟨v', k'⟩
    simp only [minsert] at hp
    split_ifs at hp with h0 h1 h2
    · exact .inr ⟨p, hp, rfl⟩
    · rcases List.mem_cons.mp hp with hp | hp
      · subst hp; exact .inl rfl
      · exact .inr ⟨p, hp, rfl⟩
    · rcases List.mem_cons.mp hp with hp | hp
      · subst hp; exact .inr ⟨(v', k'), List.mem_cons_self _ _, rfl⟩
      · rcases ih p hp with h | ⟨u, hu, he⟩
        · exact .inl h
        · exact .inr ⟨u, List.mem_cons_of_mem _ hu, he⟩
    · rcases List.mem_cons.mp hp with hp | hp
      · subst hp; exact .inr ⟨(v', k'), List.mem_cons_self _ _, rfl⟩
      · exact .inr ⟨p, List.mem_cons_of_mem _ hp, rfl⟩

theorem minsert_canon (v : String) (k : ℕ) (m : Monom) (h : MCanon m) :
    MCanon (minsert v k m) := by
  induction m with
  | nil =>
    simp only [minsert]
    split_ifs with h0
    · exact h
    · exact ⟨List.pairwise_singleton _ _, by simpa using h0⟩
  | cons q r ih =>
    obtain ⟨hpw, hnz⟩ := h
    rw [List.pairwise_cons] at hpw
    have hr : MCanon r := ⟨hpw.2, fun p hp => hnz p (List.mem_cons_of_mem _ hp)⟩
    have hins := ih hr
    rcases q with ⟨v', k'⟩
    simp only [minsert]
    split_ifs with h0 h1 h2
    · exact ⟨List.pairwise_cons.mpr hpw, hnz⟩
    · constructor
      · refine List.pairwise_cons.mpr ⟨?_, List.pairwise_cons.mpr hpw⟩
        intro u hu
        rcases List.mem_cons.mp hu with hu | hu
        · subst hu; exact h1
        · exact lt_trans (hpw.1 u hu) h1
      · intro p hp
        rcases List.mem_cons.mp hp with hp | hp
        · subst hp; simpa using h0
        · exact hnz p hp
    · constructor
      · refine List.pairwise_cons.mpr ⟨?_, hins.1⟩
        intro u hu
        rcases mem_minsert_key v k r u hu with he | ⟨w, hw, he⟩
        · rw [he]; exact h2
        · rw [he]; exact hpw.1 w hw
      · intro p hp
        rcases List.mem_cons.mp hp with hp | hp
        · subst hp; exact hnz (v', k') (List.mem_cons_self _ _)
        · exact hins.2 p hp
    · constructor
      · exact List.pairwise_cons.mpr ⟨fun u hu => hpw.1 u hu, hpw.2⟩
      · intro p hp
        rcases List.mem_cons.mp hp with hp | hp
        · subst hp
          have hk' : k' ≠ 0 := hnz (v', k') (List.mem_cons_self _ _)
          show k' + k ≠ 0
          omega
        · exact hnz p (List.mem_cons_of_mem _ hp)

theorem mnorm_canon (m : Monom) : MCanon (mnorm m) := by
  induction m with
  | nil => exact ⟨List.Pairwise.nil, by simp [mnorm]⟩
  | cons q r ih => exact minsert_canon q.1 q.2 (mnorm r) ih

theorem mnorm_fix (m : Monom) (h : MCanon m) : mnorm m = m := by
  induction m with
  | nil => rfl
  | cons q r ih =>
    obtain ⟨hpw, hnz⟩ := h
    rw [List.pairwise_cons] at hpw
    have hr : MCanon r := ⟨hpw.2, fun p hp => hnz p (List.mem_cons_of_mem _ hp)⟩
    have hq : q.2 ≠ 0 := hnz q (List.mem_cons_self _ _)
    show minsert q.1 q.2 (mnorm r) = q :: r
    rw [ih hr]
    rcases q with ⟨v, k⟩
    rcases r with _ | ⟨⟨v', k'⟩, r'⟩
    · simp only [minsert]
      rw [if_neg hq]
    · simp only [minsert]
      have hlt : encStr v' < encStr v := hpw.1 (v', k') (List.mem_cons_self _ _)
      rw [if_neg hq, if_pos hlt]

theorem mem_pinsert_key (m : Monom) (c : ℚ) (p : Poly) :
    ∀ t ∈ pinsert m c p, pkey t = encMonom m ∨ ∃ u ∈ p, pkey t = pkey u := by
  induction p with
  | nil =>
    intro t ht
    simp only [pinsert] at ht
    split_ifs at ht
    · simp at ht
    · simp at ht
      subst ht
      exact .inl rfl
  | cons u r ih =>
    intro t ht
    rcases u with ⟨m', c'⟩
    simp only [pinsert] at ht
    split_ifs at ht with h0 h1 h2 h3
    · exact .inr ⟨t, ht, rfl⟩
    · rcases List.mem_cons.mp ht with ht | ht
      · subst ht; exact .inl rfl
      · exact .inr ⟨t, ht, rfl⟩
    · rcases List.mem_cons.mp ht with ht | ht
      · subst ht; exact .inr ⟨(m', c'), List.mem_cons_self _ _, rfl⟩
      · rcases ih t ht with h | ⟨w, hw, he⟩
        · exact .inl h
        · exact .inr ⟨w, List.mem_cons_of_mem _ hw, he⟩
    · exact .inr ⟨t, List.mem_cons_of_mem _ ht, rfl⟩
    · rcases List.mem_cons.mp ht with ht | ht
      · subst ht; exact .inr ⟨(m', c'), List.mem_cons_self _ _, rfl⟩
      · exact .inr ⟨t, List.mem_cons_of_mem _ ht, rfl⟩

theorem pinsert_canon (m : Monom) (c : ℚ) (p : Poly) (hm : MCanon m)
    (h : PCanon p) : PCanon (pinsert m c p) := by
  induction p with
  | nil =>
    simp only [pinsert]
    split_ifs with h0
    · exact h
    · exact ⟨List.pairwise_singleton _ _, by simp; exact ⟨h0, hm⟩⟩
  | cons u r ih =>
    obtain ⟨hpw, hat⟩ := h
    rw [List.pairwise_cons] at hpw
    have hr : PCanon r := ⟨hpw.2, fun t ht => hat t (List.mem_cons_of_mem _ ht)⟩
    have hins := ih hr
    rcases u with ⟨m', c'⟩
    simp only [pinsert]
    split_ifs with h0 h1 h2 h3
    · exact ⟨List.pairwise_cons.mpr hpw, hat⟩
    · constructor
      · refine List.pairwise_cons.mpr ⟨?_, List.pairwise_cons.mpr hpw⟩
        intro u hu
        rcases List.mem_cons.mp hu with hu | hu
        · subst hu; exact h1
        · exact lt_trans (hpw.1 u hu) h1
      · intro t ht
        rcases List.mem_cons.mp ht with ht | ht
        · subst ht; exact ⟨h0, hm⟩
        · exact hat t ht
    · constructor
      · refine List.pairwise_cons.mpr ⟨?_, hins.1⟩
        intro u hu
        rcases mem_pinsert_key m c r u hu with he | ⟨w, hw, he⟩
        · rw [he]; exact h2
        · rw [he]; exact hpw.1 w hw
      · intro t ht
        rcases List.mem_cons.mp ht with ht | ht
        · subst ht; exact hat (m', c') (List.mem_cons_self _ _)
        · exact hins.2 t ht
    · exact hr
    · constructor
      · exact List.pairwise_cons.mpr ⟨fun u hu => hpw.1 u hu, hpw.2⟩
      · intro t ht
        rcases List.mem_cons.mp ht with ht | ht
        · subst ht
          exact ⟨h3, (hat (m', c') (List.mem_cons_self _ _)).2⟩
        · exact hat t (List.mem_cons_of_mem _ ht)

theorem pnorm_canon (l : Poly) (hm : ∀ t ∈ l, MCanon t.1) : PCanon (pnorm l) := by
  induction l with
  | nil => exact ⟨List.Pairwise.nil, by simp [pnorm]⟩
  | cons t r ih =>
    have : pnorm (t :: r) = pinsert t.1 t.2 (pnorm r) := rfl
    rw [this]
    exact pinsert_canon t.1 t.2 (pnorm r) (hm t (List.mem_cons_self _ _))
      (ih fun u hu => hm u (List.mem_cons_of_mem _ hu))

theorem pnorm_fix (p : Poly) (h : PCanon p) : pnorm p = p := by
  induction p with
  | nil => rfl
  | cons t r ih =>
    obtain ⟨hpw, hat⟩ := h
    rw [List.pairwise_cons] at hpw
    have hr : PCanon r := ⟨hpw.2, fun u hu => hat u (List.mem_cons_of_mem _ hu)⟩
    have ht : t.2 ≠ 0 := (hat t (List.mem_cons_self _ _)).1
    show pinsert t.1 t.2 (pnorm r) = t :: r
    rw [ih hr]
    rcases t with ⟨m, c⟩
    rcases r with _ | ⟨⟨m', c'⟩, r'⟩
    · simp only [pinsert]
      rw [if_neg ht]
    · simp only [pinsert]
      have hlt : encMonom m' < encMonom m := hpw.1 (m', c') (List.mem_cons_self _ _)
      rw [if_neg ht, if_pos hlt]

theorem MCanon_nil : MCanon [] :=
  ⟨List.Pairwise.nil, fun p hp => absurd hp (List.not_mem_nil p)⟩

theorem MCanon_single (v : String) (k : ℕ) (hk : k ≠ 0) : MCanon [(v, k)] :=
  ⟨List.pairwise_singleton _ _, by
    intro p hp
    rcases List.mem_cons.mp hp with hp | hp
    · subst hp; exact hk
    · exact absurd hp (List.not_mem_nil p)⟩

theorem constP_canon (c : ℚ) : PCanon (constP c) := by
  unfold constP
  split_ifs with h0
  · exact ⟨List.Pairwise.nil, fun t ht => absurd ht (List.not_mem_nil t)⟩
  · refine ⟨List.pairwise_singleton _ _, ?_⟩
    intro t ht
    rcases List.mem_cons.mp ht with ht | ht
    · subst ht; exact ⟨h0, MCanon_nil⟩
    · exact absurd ht (List.not_mem_nil t)

theorem PCanon.monoms {p : Poly} (h : PCanon p) : ∀ t ∈ p, MCanon t.1 :=
  fun t ht => (h.2 t ht).2

theorem padd_canon (p q : Poly) (hp : ∀ t ∈ p, MCanon t.1)
    (hq : ∀ t ∈ q, MCanon t.1) : PCanon (padd p q) := by
  refine pnorm_canon _ ?_
  intro t ht
  rcases List.mem_append.mp ht with ht | ht
  · exact hp t ht
  · exact hq t ht

theorem mem_mulAux (t0 : Monom × ℚ) (q : Poly) (acc : List (Monom × ℚ)) :
    ∀ u ∈ q.foldr (fun w acc' => (mmul t0.1 w.1, t0.2 * w.2) :: acc') acc,
      (∃ b ∈ q, u = (mmul t0.1 b.1, t0.2 * b.2)) ∨ u ∈ acc := by
  induction q with
  | nil => intro u hu; exact .inr hu
  | cons b r ih =>
    intro u hu
    rcases List.mem_cons.mp hu with hu | hu
    · exact .inl ⟨b, List.mem_cons_self _ _, hu⟩
    · rcases ih u hu with ⟨w, hw, he⟩ | h
      · exact .inl ⟨w, List.mem_cons_of_mem _ hw, he⟩
      · exact .inr h

theorem mem_mulList (p q : Poly) :
    ∀ u ∈ p.foldr (fun t acc =>
        q.foldr (fun w acc' => (mmul t.1 w.1, t.2 * w.2) :: acc') acc) [],
      ∃ a ∈ p, ∃ b ∈ q, u = (mmul a.1 b.1, a.2 * b.2) := by
  induction p with
  | nil => intro u hu; exact absurd hu (List.not_mem_nil u)
  | cons t r ih =>
    intro u hu
    rcases mem_mulAux t q _ u hu with ⟨b, hb, he⟩ | h
    · exact ⟨t, List.mem_cons_self _ _, b, hb, he⟩
    · obtain ⟨a, ha, b, hb, he⟩ := ih u h
      exact ⟨a, List.mem_cons_of_mem _ ha, b, hb, he⟩

theorem pmul_canon (p q : Poly) : PCanon (pmul p q) := by
  refine pnorm_canon _ ?_
  intro t ht
  obtain ⟨a, _, b, _, he⟩ := mem_mulList p q t ht
  rw [he]
  exact mnorm_canon _

theorem ppow_canon (p : Poly) (n : ℕ) : PCanon (ppow p n) := by
  induction n with
  | zero => exact constP_canon 1
  | succ n _ => exact pmul_canon _ _

theorem addAux_some {pa pb : Option Poly} {p : Poly} (h : addAux pa pb = some p) :
    ∃ a b, pa = some a ∧ pb = some b ∧ p = padd a b := by
  rcases pa with _ | a
  · exact Option.noConfusion h
  · rcases pb with _ | b
    · exact Option.noConfusion h
    · simp only [addAux, Option.some.injEq] at h
      exact ⟨a, b, rfl, rfl, h.symm⟩

theorem mulAux_some {pa pb : Option Poly} {p : Poly} (h : mulAux pa pb = some p) :
    ∃ a b, pa = some a ∧ pb = some b ∧ p = pmul a b := by
  rcases pa with _ | a
  · exact Option.noConfusion h
  · rcases pb with _ | b
    · exact Option.noConfusion h
    · simp only [mulAux, Option.some.injEq] at h
      exact ⟨a, b, rfl, rfl, h.symm⟩

theorem powAux_some {b : SymExpr} {pa : Option Poly} {p : Poly}
    (h : powAux b pa = some p) :
    ∃ x a, b = .num x ∧ pa = some a ∧ x.den = 1 ∧ 0 ≤ x.num ∧
      p = ppow a x.num.toNat := by
  cases b with
  | num x =>
    rcases pa with _ | a
    · exact Option.noConfusion h
    · simp only [powAux] at h
      split_ifs at h with hc
      simp only [Option.some.injEq] at h
      exact ⟨x, a, rfl, rfl, hc.1, hc.2, h.symm⟩
  | sym s => exact Option.noConfusion h
  | add u w => exact Option.noConfusion h
  | mul u w => exact Option.noConfusion h
  | pow u w => exact Option.noConfusion h

theorem toPoly_canon : ∀ (e : SymExpr) (p : Poly), toPoly e = some p → PCanon p := by
  intro e
  induction e with
  | num q =>
    intro p hp
    simp only [toPoly, Option.some.injEq] at hp
    subst hp
    exact constP_canon q
  | sym s =>
    intro p hp
    simp only [toPoly, Option.some.injEq] at hp
    subst hp
    refine ⟨List.pairwise_singleton _ _, ?_⟩
    intro t ht
    rcases List.mem_cons.mp ht with ht | ht
    · subst ht
      exact ⟨one_ne_zero, MCanon_single s 1 one_ne_zero⟩
    · exact absurd ht (List.not_mem_nil t)
  | add a b iha ihb =>
    intro p hp
    obtain ⟨pa, pb, ha, hb, he⟩ := addAux_some hp
    subst he
    exact padd_canon pa pb (iha pa ha).monoms ((ihb pb hb).monoms)
  | mul a b iha ihb =>
    intro p hp
    obtain ⟨pa, pb, _, _, he⟩ := mulAux_some hp
    subst he
    exact pmul_canon pa pb
  | pow a b iha ihb =>
    intro p hp
    obtain ⟨x, pa, _, _, _, _, he⟩ := powAux_some hp
    subst he
    exact ppow_canon pa _

theorem pmul_single (m₁ : Monom) (c₁ : ℚ) (m₂ : Monom) (c₂ : ℚ) :
    pmul [(m₁, c₁)] [(m₂, c₂)] = pinsert (mmul m₁ m₂) (c₁ * c₂) [] := rfl

theorem mnorm_cons (p : String × ℕ) (m : Monom) :
    mnorm (p :: m) = minsert p.1 p.2 (mnorm m) := rfl

theorem pnorm_cons (t : Monom × ℚ) (p : Poly) :
    pnorm (t :: p) = pinsert t.1 t.2 (pnorm p) := rfl

theorem minsert_same (v : String) (k kex : ℕ) (r : Monom) (hk : k ≠ 0) :
    minsert v k ((v, kex) :: r) = (v, kex + k) :: r := by
  simp only [minsert]
  rw [if_neg hk, if_neg (lt_irrefl _), if_neg (lt_irrefl _)]

theorem minsert_nil (v : String) (k : ℕ) (hk : k ≠ 0) :
    minsert v k [] = [(v, k)] := by
  simp only [minsert]
  rw [if_neg hk]

theorem pinsert_nil (m : Monom) (c : ℚ) (hc : c ≠ 0) :
    pinsert m c [] = [(m, c)] := by
  simp only [pinsert]
  rw [if_neg hc]

theorem constP_zero : constP 0 = [] := by
  unfold constP
  rw [if_pos rfl]

theorem constP_one : constP 1 = [([], 1)] := by
  unfold constP
  rw [if_neg one_ne_zero]

theorem ppow_var (v : String) (n : ℕ) :
    ppow [([(v, 1)], 1)] (n + 1) = [([(v, n + 1)], 1)] := by
  induction n with
  | zero =>
    show pmul (constP 1) [([(v, 1)], 1)] = _
    rw [constP_one, pmul_single, mul_one]
    have hmm : mmul [] [(v, 1)] = [(v, 1)] := by
      show mnorm [(v, 1)] = _
      rw [mnorm_cons]
      exact minsert_nil v 1 one_ne_zero
    rw [hmm, pinsert_nil _ _ one_ne_zero]
  | succ n ih =>
    show pmul (ppow [([(v, 1)], 1)] (n + 1)) [([(v, 1)], 1)] = _
    rw [ih, pmul_single]
    have hm : mmul [(v, n + 1)] [(v, 1)] = [(v, n + 2)] := by
      show mnorm ((v, n + 1) :: [(v, 1)]) = _
      rw [mnorm_cons]
      have h2 : mnorm [(v, 1)] = [(v, 1)] := by
        rw [mnorm_cons]
        exact minsert_nil v 1 one_ne_zero
      rw [h2]
      show minsert v (n + 1) ((v, 1) :: []) = _
      rw [minsert_same v (n + 1) 1 [] (by omega)]
      have : 1 + (n + 1) = n + 2 := by omega
      rw [this]
    rw [hm, mul_one, pinsert_nil _ _ one_ne_zero]

theorem toPoly_powFactor (v : String) (k : ℕ) (hk : k ≠ 0) :
    toPoly (powFactor (v, k)) = some [([(v, k)], 1)] := by
  unfold powFactor
  split_ifs with h1
  · simp only at h1
    subst h1
    rfl
  · simp only at h1
    show powAux (.num (k : ℚ)) (toPoly (.sym v)) = _
    show powAux (.num (k : ℚ)) (some [([(v, 1)], 1)]) = _
    simp only [powAux]
    rw [if_pos ⟨by simp, by simp⟩]
    have hnum : ((k : ℚ)).num.toNat = k := by simp
    rw [hnum]
    obtain ⟨k', rfl⟩ : ∃ k', k = k' + 1 := ⟨k - 1, by omega⟩
    rw [ppow_var]

theorem toPoly_powChain (m : Monom) (h : MCanon m) :
    toPoly (buildMul (m.map powFactor)) = some [(m, 1)] := by
  induction m with
  | nil =>
    show some (constP 1) = _
    rw [constP_one]
  | cons p r ih =>
    obtain ⟨hpw, hnz⟩ := h
    rw [List.pairwise_cons] at hpw
    have hr : MCanon r := ⟨hpw.2, fun u hu => hnz u (List.mem_cons_of_mem _ hu)⟩
    have hp2 : p.2 ≠ 0 := hnz p (List.mem_cons_self _ _)
    rcases p with ⟨v, k⟩
    rcases r with _ | ⟨⟨v', k'⟩, r'⟩
    · show toPoly (powFactor (v, k)) = _
      rw [toPoly_powFactor v k hp2]
    · have hchain := ih hr
      show mulAux (toPoly (powFactor (v, k)))
        (toPoly (buildMul (((v', k') :: r').map powFactor))) = _
      rw [toPoly_powFactor v k hp2, hchain]
      simp only [mulAux]
      rw [pmul_single]
      have hm : mmul [(v, k)] ((v', k') :: r') = (v, k) :: (v', k') :: r' := by
        show mnorm ((v, k) :: ((v', k') :: r')) = _
        rw [mnorm_cons, mnorm_fix _ hr]
        simp only [minsert]
        have hlt : encStr v' < encStr v := hpw.1 (v', k') (List.mem_cons_self _ _)
        rw [if_neg hp2, if_pos hlt]
      rw [hm, mul_one, pinsert_nil _ _ one_ne_zero]

theorem toPoly_termExpr (m : Monom) (c : ℚ) (hm : MCanon m) (hc : c ≠ 0) :
    toPoly (termExpr m c) = some [(m, c)] := by
  unfold termExpr
  split_ifs with h1
  · subst h1
    exact toPoly_powChain m hm
  · rcases m with _ | ⟨p, r⟩
    · show some (constP c) = _
      unfold constP
      rw [if_neg hc]
    · show mulAux (toPoly (.num c)) (toPoly (buildMul ((p :: r).map powFactor))) = _
      rw [toPoly_powChain _ hm]
      show mulAux (some (constP c)) _ = _
      unfold constP
      rw [if_neg hc]
      simp only [mulAux]
      rw [pmul_single]
      have hmm : mmul [] (p :: r) = p :: r := mnorm_fix _ hm
      rw [hmm, mul_one]
      show some (if c = 0 then [] else [(p :: r, c)]) = _
      rw [if_neg hc]

theorem toPoly_buildAdd (p : Poly) (h : PCanon p) :
    toPoly (buildAdd (p.map (fun t => termExpr t.1 t.2))) = some p := by
  induction p with
  | nil =>
    show some (constP 0) = _
    rw [constP_zero]
  | cons t r ih =>
    obtain ⟨hpw, hat⟩ := h
    rw [List.pairwise_cons] at hpw
    have hr : PCanon r := ⟨hpw.2, fun u hu => hat u (List.mem_cons_of_mem _ hu)⟩
    have ht := hat t (List.mem_cons_self _ _)
    rcases r with _ | ⟨u, r'⟩
    · show toPoly (termExpr t.1 t.2) = _
      rw [toPoly_termExpr t.1 t.2 ht.2 ht.1]
    · show addAux (toPoly (termExpr t.1 t.2))
        (toPoly (buildAdd ((u :: r').map (fun t => termExpr t.1 t.2)))) = _
      rw [toPoly_termExpr t.1 t.2 ht.2 ht.1, ih hr]
      simp only [addAux]
      show some (pnorm ((t.1, t.2) :: (u :: r'))) = _
      rw [pnorm_cons, pnorm_fix _ hr]
      rcases u with ⟨um, uc⟩
      simp only [pinsert]
      have hlt : encMonom um < encMonom t.1 :=
        hpw.1 (um, uc) (List.mem_cons_self _ _)
      rw [if_neg ht.1, if_pos hlt]

theorem toPoly_ofPoly (p : Poly) (h : PCanon p) : toPoly (ofPoly p) = some p := by
  rcases p with _ | ⟨⟨m, c⟩, rest⟩
  · show some (constP 0) = _
    rw [constP_zero]
  · rcases m with _ | ⟨q, mr⟩
    · rcases rest with _ | ⟨u, rest'⟩
      · have hc : c ≠ 0 := (h.2 ([], c) (List.mem_cons_self _ _)).1
        show some (constP c) = _
        unfold constP
        rw [if_neg hc]
      · exact toPoly_buildAdd _ h
    · exact toPoly_buildAdd _ h

theorem simplify_fix_of_none {e : SymExpr} (hp : toPoly e = none) :
    simplify e = e := by
  unfold simplify
  rw [hp]

theorem simplify_of_some {e : SymExpr} {p : Poly} (hp : toPoly e = some p) :
    simplify e = ofPoly p := by
  unfold simplify
  rw [hp]

theorem simplify_idem (e : SymExpr) : simplify (simplify e) = simplify e := by
  rcases hp : toPoly e with _ | p
  · rw [simplify_fix_of_none hp, simplify_fix_of_none hp]
  · rw [simplify_of_some hp,
      simplify_of_some (toPoly_ofPoly p (toPoly_canon e p hp))]

/-! ### Structure of the univariate coefficient list and root ordering -/

/-- Monomial code of the degree-`d` monomial in `v`. -/
def degCode (v : String) (d : ℕ) : ℕ :=
  if d = 0 then 0 else Nat.pair (Nat.pair (encStr v) d) 0 + 1

theorem degCode_lt (v : String) {d d' : ℕ} (h : d < d') :
    degCode v d < degCode v d' := by
  unfold degCode
  rcases Nat.eq_zero_or_pos d with hd | hd
  · subst hd
    rw [if_pos rfl, if_neg (by omega)]
    omega
  · rw [if_neg (by omega), if_neg (by omega)]
    have h1 : Nat.pair (encStr v) d < Nat.pair (encStr v) d' :=
      Nat.pair_lt_pair_right _ h
    have h2 : Nat.pair (Nat.pair (encStr v) d) 0 < Nat.pair (Nat.pair (encStr v) d') 0 :=
      Nat.pair_lt_pair_left _ h1
    omega

theorem degCode_lt_rev (v : String) {d d' : ℕ}
    (h : degCode v d < degCode v d') : d < d' := by
  rcases lt_trichotomy d d' with hlt | heq | hgt
  · exact hlt
  · subst heq; exact absurd h (lt_irrefl _)
  · exact absurd (lt_trans h (degCode_lt v hgt)) (lt_irrefl _)

theorem univar_mem (v : String) : ∀ (p : Poly) (l : List (ℕ × ℚ)),
    (∀ t ∈ p, MCanon t.1) → univar v p = some l →
    ∀ e ∈ l, ∃ t ∈ p, t.2 = e.2 ∧ encMonom t.1 = degCode v e.1 := by
  intro p
  induction p with
  | nil =>
    intro l _ hl e he
    simp only [univar, Option.some.injEq] at hl
    subst hl
    exact absurd he (List.not_mem_nil e)
  | cons t r ih =>
    intro l hm hl e he
    rcases t with ⟨m, c⟩
    rcases m with _ | ⟨⟨w, k⟩, mr⟩
    · rcases hr : univar v r with _ | l'
      · rw [univar, hr] at hl
        exact Option.noConfusion hl
      · rw [univar, hr] at hl
        simp only [Option.some.injEq] at hl
        subst hl
        rcases List.mem_cons.mp he with he | he
        · subst he
          exact ⟨([], c), List.mem_cons_self _ _, rfl, rfl⟩
        · obtain ⟨t', ht', h1, h2⟩ :=
            ih l' (fun u hu => hm u (List.mem_cons_of_mem _ hu)) hr e he
          exact ⟨t', List.mem_cons_of_mem _ ht', h1, h2⟩
    · rcases mr with _ | ⟨hd, tl⟩
      · rw [univar] at hl
        split_ifs at hl with hw
        · subst hw
          rcases hr : univar w r with _ | l'
          · rw [hr] at hl
            exact Option.noConfusion hl
          · rw [hr] at hl
            simp only [Option.some.injEq] at hl
            subst hl
            rcases List.mem_cons.mp he with he | he
            · subst he
              have hk : k ≠ 0 :=
                (hm ([(w, k)], c) (List.mem_cons_self _ _)).2 (w, k)
                  (List.mem_cons_self _ _)
              refine ⟨([(w, k)], c), List.mem_cons_self _ _, rfl, ?_⟩
              show Nat.pair (Nat.pair (encStr w) k) 0 + 1 = degCode w k
              unfold degCode
              rw [if_neg hk]
            · obtain ⟨t', ht', h1, h2⟩ :=
                ih l' (fun u hu => hm u (List.mem_cons_of_mem _ hu)) hr e he
              exact ⟨t', List.mem_cons_of_mem _ ht', h1, h2⟩
      · have hnone : univar v (((w, k) :: hd :: tl, c) :: r) = none := rfl
        rw [hnone] at hl
        exact Option.noConfusion hl

theorem univar_pairwise (v : String) : ∀ (p : Poly) (l : List (ℕ × ℚ)),
    PCanon p → univar v p = some l →
    List.Pairwise (fun a b => b.1 < a.1) l ∧ ∀ e ∈ l, e.2 ≠ 0 := by
  intro p
  induction p with
  | nil =>
    intro l _ hl
    simp only [univar, Option.some.injEq] at hl
    subst hl
    exact ⟨List.Pairwise.nil, fun e he => absurd he (List.not_mem_nil e)⟩
  | cons t r ih =>
    intro l hc hl
    obtain ⟨hpw, hat⟩ := hc
    rw [List.pairwise_cons] at hpw
    have hr : PCanon r := ⟨hpw.2, fun u hu => hat u (List.mem_cons_of_mem _ hu)⟩
    have hmono : ∀ l', univar v r = some l' → ∀ d c₀,
        encMonom t.1 = degCode v d →
        l = (d, c₀) :: l' → t.2 = c₀ →
        List.Pairwise (fun a b => b.1 < a.1) l ∧ ∀ e ∈ l, e.2 ≠ 0 := by
      intro l' hr' d c₀ hcode hl' hco
      obtain ⟨ihpw, ihnz⟩ := ih l' hr hr'
      subst hl'
      constructor
      · refine List.pairwise_cons.mpr ⟨?_, ihpw⟩
        intro e' he'
        obtain ⟨t', ht', _, hcode'⟩ :=
          univar_mem v r l' hr.monoms hr' e' he'
        have hk : pkey t' < pkey t := hpw.1 t' ht'
        have : degCode v e'.1 < degCode v d := by
          rw [← hcode', ← hcode]
          exact hk
        exact degCode_lt_rev v this
      · intro e he
        rcases List.mem_cons.mp he with he | he
        · subst he
          show c₀ ≠ 0
          rw [← hco]
          exact (hat t (List.mem_cons_self _ _)).1
        · exact ihnz e he
    rcases t with ⟨m, c⟩
    rcases m with _ | ⟨⟨w, k⟩, mr⟩
    · rcases hr' : univar v r with _ | l'
      · rw [univar, hr'] at hl
        exact Option.noConfusion hl
      · rw [univar, hr'] at hl
        simp only [Option.some.injEq] at hl
        exact hmono l' hr' 0 c rfl hl.symm rfl
    · rcases mr with _ | ⟨hd, tl⟩
      · rw [univar] at hl
        split_ifs at hl with hw
        · subst hw
          rcases hr' : univar w r with _ | l'
          · rw [hr'] at hl
            exact Option.noConfusion hl
          · rw [hr'] at hl
            simp only [Option.some.injEq] at hl
            have hk : k ≠ 0 :=
              (hat ([(w, k)], c) (List.mem_cons_self _ _)).2.2 (w, k)
                (List.mem_cons_self _ _)
            refine hmono l' hr' k c ?_ hl.symm rfl
            show Nat.pair (Nat.pair (encStr w) k) 0 + 1 = degCode w k
            unfold degCode
            rw [if_neg hk]
      · have hnone : univar v (((w, k) :: hd :: tl, c) :: r) = none := rfl
        rw [hnone] at hl
        exact Option.noConfusion hl

theorem degOf_le (l : List (ℕ × ℚ)) (b : ℕ) (h : ∀ e ∈ l, e.1 ≤ b) :
    degOf l ≤ b := by
  induction l with
  | nil => exact Nat.zero_le b
  | cons e r ih =>
    show max e.1 (degOf r) ≤ b
    exact max_le (h e (List.mem_cons_self _ _))
      (ih fun u hu => h u (List.mem_cons_of_mem _ hu))

theorem degOf_cons (e : ℕ × ℚ) (l : List (ℕ × ℚ)) (h : ∀ u ∈ l, u.1 < e.1) :
    degOf (e :: l) = e.1 := by
  show max e.1 (degOf l) = e.1
  exact max_eq_left (degOf_le l e.1 fun u hu => le_of_lt (h u hu))

theorem coeffAt_cons (e : ℕ × ℚ) (l : List (ℕ × ℚ)) (k : ℕ) :
    coeffAt (e :: l) k = if e.1 = k then e.2 else coeffAt l k := rfl

theorem ratSqrt_spec (q s : ℚ) (h : ratSqrt q = some s) : 0 ≤ s ∧ s * s = q := by
  simp only [ratSqrt] at h
  split_ifs at h with h0 h1
  · simp only [Option.some.injEq] at h
    subst h
    obtain ⟨hn, hd⟩ := h1
    constructor
    · positivity
    · have hnum : 0 ≤ q.num := Rat.num_nonneg.mpr h0
      have h2 : ((isqrt q.num.toNat : ℤ)) * (isqrt q.num.toNat) = q.num := by
        rw [← Int.toNat_of_nonneg hnum]
        exact_mod_cast hn
      rw [div_mul_div_comm]
      have h3 : ((isqrt q.num.toNat : ℚ)) * (isqrt q.num.toNat) = (q.num : ℚ) := by
        exact_mod_cast congrArg (fun z : ℤ => (z : ℚ)) h2
      have h4 : ((isqrt q.den : ℚ)) * (isqrt q.den) = (q.den : ℚ) := by
        exact_mod_cast congrArg (fun n : ℕ => (n : ℚ)) hd
      rw [h3, h4, Rat.num_div_den]

/-- Strict order on model roots: ascending real part, then (for equal real
parts) ascending imaginary part.  This is the order in which the modelled
`sympy.solve` returns every root list it produces. -/
def gaussLt (g h : GaussQ) : Prop := g.1 < h.1 ∨ (g.1 = h.1 ∧ g.2 < h.2)

theorem sympySolve_sorted (e : SymExpr) (v : String) (rs : List GaussQ)
    (h : sympySolve e v = some rs) : List.Chain' gaussLt rs := by
  unfold sympySolve at h
  rcases hp : toPoly e with _ | p
  · rw [hp] at h
    exact Option.noConfusion h
  rw [hp] at h
  change (match univar v p with
    | none => none
    | some l => solveCoeffs l) = some rs at h
  rcases hu : univar v p with _ | l
  · rw [hu] at h
    exact Option.noConfusion h
  rw [hu] at h
  change solveCoeffs l = some rs at h
  obtain ⟨hlpw, hlnz⟩ := univar_pairwise v p l (toPoly_canon e p hp) hu
  unfold solveCoeffs at h
  by_cases h0 : degOf l = 0
  · rw [if_pos h0] at h
    simp only [Option.some.injEq] at h
    subst h
    exact List.chain'_nil
  rw [if_neg h0] at h
  by_cases h1 : degOf l = 1
  · rw [if_pos h1] at h
    simp only [Option.some.injEq] at h
    subst h
    exact List.chain'_singleton _
  rw [if_neg h1] at h
  by_cases h2 : degOf l = 2
  swap
  · rw [if_neg h2] at h
    exact Option.noConfusion h
  rw [if_pos h2] at h
  rcases l with _ | ⟨e0, l'⟩
  · exfalso
    exact h0 rfl
  have hdeg : degOf (e0 :: l') = e0.1 :=
    degOf_cons e0 l' (List.pairwise_cons.mp hlpw).1
  have he0 : e0.1 = 2 := by rw [hdeg] at h2; exact h2
  have hane : coeffAt (e0 :: l') 2 ≠ 0 := by
    rw [coeffAt_cons, if_pos he0]
    exact hlnz e0 (List.mem_cons_self _ _)
  have h2a : (2 : ℚ) * coeffAt (e0 :: l') 2 ≠ 0 := mul_ne_zero two_ne_zero hane
  by_cases hd0 : coeffAt (e0 :: l') 1 ^ 2 -
      4 * coeffAt (e0 :: l') 2 * coeffAt (e0 :: l') 0 = 0
  · rw [if_pos hd0] at h
    simp only [Option.some.injEq] at h
    subst h
    exact List.chain'_singleton _
  rw [if_neg hd0] at h
  by_cases hdp : 0 < coeffAt (e0 :: l') 1 ^ 2 -
      4 * coeffAt (e0 :: l') 2 * coeffAt (e0 :: l') 0
  · rw [if_pos hdp] at h
    rcases hs : ratSqrt (coeffAt (e0 :: l') 1 ^ 2 -
        4 * coeffAt (e0 :: l') 2 * coeffAt (e0 :: l') 0) with _ | s
    · rw [hs] at h
      exact Option.noConfusion h
    rw [hs] at h
    simp only [Option.some.injEq] at h
    subst h
    obtain ⟨hs0, hss⟩ := ratSqrt_spec _ s hs
    have hspos : 0 < s := by
      rcases lt_or_eq_of_le hs0 with h' | h'
      · exact h'
      · exfalso
        rw [← h'] at hss
        simp at hss
        exact absurd hss.symm (ne_of_gt (by linarith))
    have hne : (-(coeffAt (e0 :: l') 1) - s) / (2 * coeffAt (e0 :: l') 2) ≠
        (-(coeffAt (e0 :: l') 1) + s) / (2 * coeffAt (e0 :: l') 2) := by
      intro heq
      rw [div_eq_div_iff h2a h2a] at heq
      have := mul_right_cancel₀ h2a heq
      linarith
    refine List.chain'_cons.mpr ⟨Or.inl ?_, List.chain'_singleton _⟩
    exact min_lt_max.mpr hne
  · rw [if_neg hdp] at h
    rcases hs : ratSqrt (-(coeffAt (e0 :: l') 1 ^ 2 -
        4 * coeffAt (e0 :: l') 2 * coeffAt (e0 :: l') 0)) with _ | s
    · rw [hs] at h
      exact Option.noConfusion h
    rw [hs] at h
    simp only [Option.some.injEq] at h
    subst h
    obtain ⟨hs0, hss⟩ := ratSqrt_spec _ s hs
    have hsne : s ≠ 0 := by
      intro h'
      rw [h'] at hss
      simp at hss
      rcases lt_trichotomy (coeffAt (e0 :: l') 1 ^ 2 -
          4 * coeffAt (e0 :: l') 2 * coeffAt (e0 :: l') 0) 0 with hlt | heq | hgt
      · linarith
      · exact hd0 heq
      · exact hdp hgt
    have himpos : 0 < |s / (2 * coeffAt (e0 :: l') 2)| :=
      abs_pos.mpr (div_ne_zero hsne h2a)
    refine List.chain'_cons.mpr ⟨Or.inr ⟨rfl, ?_⟩, List.chain'_singleton _⟩
    exact neg_lt_self himpos

/-! ### The general linear equation `a*x + b = c` -/

/-- The evaluated SymPy form of `a*x` for `a ≠ 0` (SymPy drops a unit
coefficient). -/
def axE (a : ℚ) : SymExpr :=
  if a = 1 then .sym "x" else .mul (.num a) (.sym "x")

/-- The expression `parse_equation` produces for the equation text
`a*x + b = c`: both sides parse and evaluate, and the parser returns
`left - right = Add(Add(Mul(a, x), b), Mul(-1, c))`, evaluated. -/
def linEq (a b c : ℚ) : SymExpr :=
  autoEval (.sub (.add (.mul (.num a) (.var "x")) (.num b)) (.num c))

theorem mulEval_num_num (u w : ℚ) : mulEval [.num u, .num w] = .num (u * w) := by
  simp only [mulEval, flattenMul, List.foldr, List.append_nil, List.foldl, List.filter]
  split_ifs with h1 h2
  · congr 1
    linear_combination -h1
  · show SymExpr.num 1 = _
    congr 1
    linear_combination -h2
  · congr 1
    ring

theorem mulEval_num_sym (a : ℚ) (ha : a ≠ 0) : mulEval [.num a, .sym "x"] = axE a := by
  unfold axE
  by_cases h1 : a = 1
  · subst h1
    rw [if_pos rfl]
    simp [mulEval, flattenMul, splitPow, upsertBase, rebuildFactor, buildMul]
  · rw [if_neg h1]
    simp only [mulEval, flattenMul, List.foldr, List.append_nil, List.foldl, List.filter,
      splitPow, upsertBase, rebuildFactor, one_mul]
    rw [if_neg ha, if_neg h1]
    rfl

theorem addEval_sym_num (b : ℚ) : addEval [.sym "x", .num b] =
    if b = 0 then .sym "x" else .add (.sym "x") (.num b) := by
  by_cases hb : b = 0
  · subst hb
    rw [if_pos rfl]
    simp [addEval, flattenAdd, splitTerm, upsertTerm, rebuildTerm, buildMul, buildAdd]
  · rw [if_neg hb]
    simp only [addEval, flattenAdd, List.foldr, List.append_nil, List.foldl,
      splitTerm, upsertTerm, rebuildTerm, buildMul, buildAdd, zero_add]
    norm_num [hb]
    rfl

theorem addEval_mul_num (a b : ℚ) (ha : a ≠ 0) (h1 : a ≠ 1) :
    addEval [.mul (.num a) (.sym "x"), .num b] =
    if b = 0 then .mul (.num a) (.sym "x")
    else .add (.mul (.num a) (.sym "x")) (.num b) := by
  by_cases hb : b = 0
  · subst hb
    rw [if_pos rfl]
    simp [addEval, flattenAdd, splitTerm, flattenMul, upsertTerm, rebuildTerm, buildMul,
      buildAdd, ha, h1]
  · rw [if_neg hb]
    simp only [addEval, flattenAdd, List.foldr, List.append_nil, List.foldl,
      splitTerm, flattenMul, upsertTerm, rebuildTerm, buildMul, buildAdd, zero_add]
    norm_num [hb, ha, h1]
    rfl

theorem addEval_addsym_num (b k : ℚ) : addEval [.add (.sym "x") (.num b), .num k] =
    if b + k = 0 then .sym "x" else .add (.sym "x") (.num (b + k)) := by
  by_cases hbk : b + k = 0
  · rw [if_pos hbk]
    simp [addEval, flattenAdd, splitTerm, upsertTerm, rebuildTerm, buildMul, buildAdd,
      hbk]
  · rw [if_neg hbk]
    simp only [addEval, flattenAdd, List.foldr, List.append_nil, List.foldl,
      splitTerm, upsertTerm, rebuildTerm, buildMul, buildAdd, zero_add]
    norm_num [hbk]
    rfl

theorem addEval_addmul_num (a b k : ℚ) (ha : a ≠ 0) (h1 : a ≠ 1) :
    addEval [.add (.mul (.num a) (.sym "x")) (.num b), .num k] =
    if b + k = 0 then .mul (.num a) (.sym "x")
    else .add (.mul (.num a) (.sym "x")) (.num (b + k)) := by
  by_cases hbk : b + k = 0
  · rw [if_pos hbk]
    simp [addEval, flattenAdd, splitTerm, flattenMul, upsertTerm, rebuildTerm, buildMul,
      buildAdd, hbk, ha, h1]
  · rw [if_neg hbk]
    simp only [addEval, flattenAdd, List.foldr, List.append_nil, List.foldl,
      splitTerm, flattenMul, upsertTerm, rebuildTerm, buildMul, buildAdd, zero_add]
    norm_num [hbk, ha, h1]
    rfl

theorem linEq_shape (a b c : ℚ) (ha : a ≠ 0) :
    linEq a b c = if b - c = 0 then axE a
    else .add (axE a) (.num (b - c)) := by
  show addEval [addEval [mulEval [.num a, .sym "x"], .num b],
    mulEval [.num (-1), .num c]] = _
  rw [mulEval_num_sym a ha, mulEval_num_num, neg_one_mul]
  unfold axE
  by_cases h1 : a = 1
  · rw [if_pos h1, addEval_sym_num]
    by_cases hb : b = 0
    · rw [if_pos hb, addEval_sym_num]
      subst hb
      rw [zero_sub]
    · rw [if_neg hb, addEval_addsym_num, sub_eq_add_neg]
  · rw [if_neg h1, addEval_mul_num a b ha h1]
    by_cases hb : b = 0
    · rw [if_pos hb, addEval_mul_num a (-c) ha h1]
      subst hb
      rw [zero_sub]
    · rw [if_neg hb, addEval_addmul_num a b (-c) ha h1, sub_eq_add_neg]

theorem pinsert_cons_front (m : Monom) (c : ℚ) (m' : Monom) (c' : ℚ) (r : Poly)
    (hc : c ≠ 0) (hlt : encMonom m' < encMonom m) :
    pinsert m c ((m', c') :: r) = (m, c) :: (m', c') :: r := by
  simp only [pinsert]
  rw [if_neg hc, if_pos hlt]

theorem toPoly_axE (a : ℚ) (ha : a ≠ 0) : toPoly (axE a) = some [([("x", 1)], a)] := by
  unfold axE
  split_ifs with h1
  · subst h1
    rfl
  · show mulAux (some (constP a)) (some [([("x", 1)], 1)]) = _
    unfold constP
    rw [if_neg ha]
    simp only [mulAux]
    rw [pmul_single, mul_one]
    have hmm : mmul [] [("x", 1)] = [("x", 1)] := by
      show mnorm [("x", 1)] = _
      rw [mnorm_cons]
      exact minsert_nil "x" 1 one_ne_zero
    rw [hmm, pinsert_nil _ _ ha]

theorem toPoly_linEq (a b c : ℚ) (ha : a ≠ 0) :
    toPoly (linEq a b c) =
    some (if b - c = 0 then [([("x", 1)], a)]
      else [([("x", 1)], a), ([], b - c)]) := by
  rw [linEq_shape a b c ha]
  by_cases hbc : b - c = 0
  · rw [if_pos hbc, if_pos hbc, toPoly_axE a ha]
  · rw [if_neg hbc, if_neg hbc]
    show addAux (toPoly (axE a)) (toPoly (.num (b - c))) = _
    rw [toPoly_axE a ha]
    show addAux _ (some (constP (b - c))) = _
    unfold constP
    rw [if_neg hbc]
    simp only [addAux]
    show some (pnorm [([("x", 1)], a), ([], b - c)]) = _
    rw [pnorm_cons, pnorm_cons]
    show some (pinsert [("x", 1)] a (pinsert [] (b - c) [])) = _
    rw [pinsert_nil _ _ hbc,
      pinsert_cons_front _ _ _ _ _ ha (by decide)]

theorem mem_free_linEq (a b c : ℚ) (ha : a ≠ 0) :
    "x" ∈ freeSymbols (linEq a b c) := by
  rw [linEq_shape a b c ha]
  unfold axE
  split_ifs <;> simp [freeSymbols]

theorem sympySolve_linEq (a b c : ℚ) (ha : a ≠ 0) :
    sympySolve (linEq a b c) "x" = some [((c - b) / a, 0)] := by
  unfold sympySolve
  rw [toPoly_linEq a b c ha]
  by_cases hbc : b - c = 0
  · rw [if_pos hbc]
    show solveCoeffs [(1, a)] = _
    show some [(-(0 : ℚ) / a, 0)] = _
    have h1 : c - b = 0 := by linarith
    rw [h1]
    norm_num
  · rw [if_neg hbc]
    show solveCoeffs [(1, a), (0, b - c)] = _
    show some [(-(b - c) / a, 0)] = _
    rw [neg_sub]

theorem solveEquationE_linEq (a b c : ℚ) (ha : a ≠ 0) :
    solveEquationE (linEq a b c) "x" = some (.roots [((c - b) / a, 0)]) := by
  unfold solveEquationE
  rw [if_pos (mem_free_linEq a b c ha), sympySolve_linEq a b c ha]

/-! ### Evaluation path, formatter and integer-printing lemmas -/

theorem solveEquationE_eval (e : SymExpr) (v : String) (h : v ∉ freeSymbols e) :
    solveEquationE e v = some (.eval (simplify e)) := by
  unfold solveEquationE
  rw [if_neg h]

theorem solveEquationE_allReals (e : SymExpr) (v : String)
    (h1 : v ∈ freeSymbols e) (h2 : sympySolve e v = some [])
    (h3 : simplify e = .num 0) :
    solveEquationE e v = some .allReals := by
  unfold solveEquationE
  rw [if_pos h1, h2]
  show (if simplify e = SymExpr.num 0 then some SolveResult.allReals
    else some (.roots [])) = _
  rw [if_pos h3]

theorem ofPoly_constP (q : ℚ) : ofPoly (constP q) = .num q := by
  by_cases h : q = 0
  · subst h
    rw [constP_zero]
    rfl
  · unfold constP
    rw [if_neg h]
    rfl

theorem simplify_num (q : ℚ) : simplify (.num q) = .num q := by
  have h : toPoly (.num q) = some (constP q) := rfl
  rw [simplify_of_some h, ofPoly_constP]

theorem natLog2Go_bounds : ∀ (f n : ℕ), 1 ≤ n → n ≤ f →
    2 ^ natLog2Go f n ≤ n ∧ n < 2 ^ (natLog2Go f n + 1) := by
  intro f
  induction f with
  | zero => intro n h1 h2; omega
  | succ f ih =>
    intro n h1 h2
    simp only [natLog2Go]
    split_ifs with h
    · have hn : n = 1 := by omega
      subst hn
      norm_num
    · have h1' : 1 ≤ n / 2 := by omega
      have h2' : n / 2 ≤ f := by omega
      obtain ⟨a, b⟩ := ih (n / 2) h1' h2'
      constructor
      · rw [pow_succ]
        omega
      · rw [pow_succ]
        omega

theorem natLog2_bounds (n : ℕ) (h : 1 ≤ n) :
    2 ^ natLog2 n ≤ n ∧ n < 2 ^ (natLog2 n + 1) :=
  natLog2Go_bounds n n h le_rfl

theorem floorLog2_one (n : ℕ) (h : 1 ≤ n) : floorLog2 n 1 = natLog2 n := by
  have h1 : natLog2 1 = 0 := rfl
  unfold floorLog2
  rw [h1]
  simp only [Nat.cast_zero, sub_zero]
  rw [if_pos (Int.natCast_nonneg (natLog2 n))]
  rw [if_pos]
  have := (natLog2_bounds n h).1
  simpa using this

theorem rndNat_one (k : ℕ) : rndNat k 1 = k := by
  simp [rndNat, Nat.mod_one, Nat.div_one]

theorem floatPos_exact (n : ℕ) (h1 : 1 ≤ n) (h2 : n ≤ 2 ^ 53) :
    floatPos n 1 = some ((n : ℕ) : ℚ) := by
  obtain ⟨hlo, hhi⟩ := natLog2_bounds n h1
  have h53 : (2 : ℕ) ^ 53 = 9007199254740992 := by norm_num
  have hL : natLog2 n ≤ 53 := by
    by_contra hcon
    push_neg at hcon
    have hp : (2 : ℕ) ^ 54 ≤ 2 ^ natLog2 n := Nat.pow_le_pow_right (by norm_num) (by omega)
    have h54 : (2 : ℕ) ^ 54 = 18014398509481984 := by norm_num
    omega
  have hq1024 : qpow2 1024 = ((2 ^ 1024 : ℕ) : ℚ) := by
    have ht : ((1024 : ℤ)).toNat = 1024 := rfl
    unfold qpow2
    rw [if_pos (by norm_num), ht]
  have hnbig : ¬ qpow2 1024 ≤ ((n : ℕ) : ℚ) := by
    rw [hq1024, not_le]
    have hpl : (2 : ℕ) ^ 53 < 2 ^ 1024 := by norm_num
    have hlt : n < 2 ^ 1024 := by omega
    exact_mod_cast hlt
  simp only [floatPos]
  rw [floorLog2_one n h1]
  have hmax : max ((natLog2 n : ℤ) - 52) (-1074) = (natLog2 n : ℤ) - 52 :=
    max_eq_left (by omega)
  rw [hmax]
  rcases Nat.lt_or_ge (natLog2 n) 53 with hc | hc
  · -- the value lies below `2 ^ 53`: the grid unit is `2 ^ (natLog2 n - 52) ≤ 1`
    have ht1 : ((natLog2 n : ℤ) - 52).toNat = 0 := by omega
    have ht2 : (-((natLog2 n : ℤ) - 52)).toNat = 52 - natLog2 n := by omega
    rw [ht1, ht2]
    rw [pow_zero, mul_one, rndNat_one]
    have hq : qpow2 ((natLog2 n : ℤ) - 52) = 1 / ((2 ^ (52 - natLog2 n) : ℕ) : ℚ) := by
      unfold qpow2
      split_ifs with h0
      · have hL52 : natLog2 n = 52 := by omega
        rw [ht1, hL52]
        norm_num
      · rw [ht2]
    rw [hq]
    have hv : ((n * 2 ^ (52 - natLog2 n) : ℕ) : ℚ) *
        (1 / ((2 ^ (52 - natLog2 n) : ℕ) : ℚ)) = ((n : ℕ) : ℚ) := by
      have hne : ((2 ^ (52 - natLog2 n) : ℕ) : ℚ) ≠ 0 := by positivity
      push_cast
      field_simp
    rw [hv, if_neg hnbig]
  · -- `natLog2 n = 53` forces `n = 2 ^ 53`, the largest exactly held integer
    have hL53 : natLog2 n = 53 := by omega
    have hn : n = 2 ^ 53 := by
      rw [hL53] at hlo
      omega
    have hu : (natLog2 n : ℤ) - 52 = 1 := by omega
    rw [hu]
    have ht1 : ((1 : ℤ)).toNat = 1 := rfl
    have ht2 : ((-(1 : ℤ))).toNat = 0 := rfl
    rw [ht1, ht2]
    rw [pow_zero, mul_one, pow_one, one_mul]
    have hr : rndNat n 2 = 2 ^ 52 := by
      rw [hn]
      simp [rndNat]
    rw [hr]
    have hq1 : qpow2 1 = ((2 ^ 1 : ℕ) : ℚ) := by
      unfold qpow2
      rw [if_pos (by norm_num), ht1]
    rw [hq1]
    have hv : (((2 : ℕ) ^ 52 : ℕ) : ℚ) * ((2 ^ 1 : ℕ) : ℚ) = ((n : ℕ) : ℚ) := by
      rw [hn]
      push_cast
      ring
    rw [hv, if_neg hnbig]

theorem floatOfRat_int (z : ℤ) (h : z.natAbs ≤ 2 ^ 53) :
    floatOfRat ((z : ℤ) : ℚ) = some ((z : ℤ) : ℚ) := by
  have h53 : (2 : ℕ) ^ 53 = 9007199254740992 := by norm_num
  have hnum : ((z : ℤ) : ℚ).num = z := Rat.num_intCast z
  have hden : ((z : ℤ) : ℚ).den = 1 := Rat.den_intCast z
  unfold floatOfRat
  rw [hnum, hden]
  rcases lt_trichotomy z 0 with hz | hz | hz
  · rw [if_neg (by omega), if_neg (by omega)]
    have hm1 : 1 ≤ (-z).toNat := by omega
    have hm2 : (-z).toNat ≤ 2 ^ 53 := by omega
    rw [floatPos_exact _ hm1 hm2]
    show some (-(((-z).toNat : ℕ) : ℚ)) = some ((z : ℤ) : ℚ)
    congr 1
    have hzt : ((-z).toNat : ℤ) = -z := by omega
    have h3 : (((-z).toNat : ℕ) : ℚ) = ((-z : ℤ) : ℚ) := by exact_mod_cast hzt
    rw [h3]
    push_cast
    ring
  · subst hz
    norm_num
  · rw [if_neg (by omega), if_pos hz]
    rw [floatPos_exact _ (by omega) (by omega)]
    congr 1
    have hzt : (z.toNat : ℤ) = z := by omega
    exact_mod_cast hzt

theorem floatE_int (n : ℤ) (h : n.natAbs ≤ 2 ^ 53) :
    floatE (.num ((n : ℤ) : ℚ)) = .val ((n : ℤ) : ℚ) := by
  show (match floatOfRat ((n : ℤ) : ℚ) with
    | some v => FloatCast.val v
    | none => FloatCast.overflow) = _
  rw [floatOfRat_int n h]

theorem format_eval_int (n : ℤ) (h : n.natAbs ≤ 2 ^ 53) :
    formatSolutions (.eval (.num ((n : ℤ) : ℚ))) = .ok (intStr n) := by
  show (match floatE (.num ((n : ℤ) : ℚ)) with
    | FloatCast.val v => if v.den = 1 then Except.ok (intStr v.num)
        else Except.ok (strE (.num ((n : ℤ) : ℚ)))
    | FloatCast.overflow => Except.error Err.ovfErr
    | FloatCast.typeErr => Except.ok (strE (.num ((n : ℤ) : ℚ)))) =
      Except.ok (intStr n)
  rw [floatE_int n h]
  show (if ((n : ℤ) : ℚ).den = 1 then Except.ok (intStr ((n : ℤ) : ℚ).num)
      else Except.ok (strE (.num ((n : ℤ) : ℚ)))) = Except.ok (intStr n)
  rw [if_pos (Rat.den_intCast n), Rat.num_intCast]

theorem format_eval_typeErr (e : SymExpr) (h : floatE e = .typeErr) :
    formatSolutions (.eval e) = .ok (strE e) := by
  show (match floatE e with
    | FloatCast.val v => if v.den = 1 then Except.ok (intStr v.num)
        else Except.ok (strE e)
    | FloatCast.overflow => Except.error Err.ovfErr
    | FloatCast.typeErr => Except.ok (strE e)) = _
  rw [h]

theorem format_roots_single (g : GaussQ) :
    formatSolutions (.roots [g]) = .ok ("x = " ++ gaussStr g) := rfl

theorem mem_natDigits (f : ℕ) : ∀ (n : ℕ) (acc : List Char),
    ∀ c ∈ natDigits f n acc, c ∈ acc ∨ ∃ d, d < 10 ∧ c = digitChr d := by
  induction f with
  | zero => intro n acc c hc; exact .inl hc
  | succ f ih =>
    intro n acc c hc
    simp only [natDigits] at hc
    split_ifs at hc with h10
    · rcases List.mem_cons.mp hc with hc | hc
      · exact .inr ⟨n, h10, hc⟩
      · exact .inl hc
    · rcases ih (n / 10) (digitChr (n % 10) :: acc) c hc with h | h
      · rcases List.mem_cons.mp h with h | h
        · exact .inr ⟨n % 10, Nat.mod_lt _ (by omega), h⟩
        · exact .inl h
      · exact .inr h

theorem mem_natStr (n : ℕ) (c : Char) (hc : c ∈ (natStr n).data) :
    ∃ d, d < 10 ∧ c = digitChr d := by
  rcases mem_natDigits (n + 1) n [] c hc with h | h
  · exact absurd h (List.not_mem_nil c)
  · exact h

theorem intStr_ne_noSolution (z : ℤ) : intStr z ≠ "No solution exists" := by
  intro h
  have hdata := congrArg String.data h
  unfold intStr at hdata
  split_ifs at hdata with hz
  · have h2 : ('-' :: (natStr z.natAbs).data) = "No solution exists".data := by
      rw [← hdata]
      rfl
    have hm : '-' ∈ ('-' :: (natStr z.natAbs).data) := List.mem_cons_self _ _
    rw [h2] at hm
    exact absurd hm (by decide)
  · have hN : 'N' ∈ ("No solution exists").data := by decide
    rw [← hdata] at hN
    obtain ⟨d, hd, he⟩ := mem_natStr _ _ hN
    interval_cases d <;> exact absurd he (by decide)

/-! ### Character-level facts about integer printing -/

theorem intStr_chars (z : ℤ) :
    ∀ c ∈ (intStr z).data, c = '-' ∨ ∃ d, d < 10 ∧ c = digitChr d := by
  intro c hc
  unfold intStr at hc
  split_ifs at hc with hz
  · have h2 : ("-" ++ natStr z.natAbs).data = '-' :: (natStr z.natAbs).data := rfl
    rw [h2] at hc
    rcases List.mem_cons.mp hc with hc | hc
    · exact .inl hc
    · exact .inr (mem_natStr _ _ hc)
  · exact .inr (mem_natStr _ _ hc)

/-! ### Claim theorems

Decidable-equality instances and rational arithmetic are made available to
kernel evaluation so that the concrete pipeline runs below go through
`decide`. -/

deriving instance DecidableEq for Except

unseal Rat.add Rat.mul Rat.sub Rat.inv

set_option maxRecDepth 200000

/-- C1 counterexample: the program answers `"-5"` on `"x - x = 5"`, which is
not the string `"No solution exists"` the claim requires. -/
theorem C1_counter : solveStr "x - x = 5" "x" = .ok (some "-5") ∧
    ("-5" : String) ≠ "No solution exists" :=
  ⟨by decide, by decide⟩

/-- C1: solving `"x - x = 5"` does NOT produce `"No solution exists"` — the
difference `x - x - 5` auto-evaluates to the constant `-5`, the target
variable is no longer among the free symbols, so `solve_equation` takes the
scalar-evaluation (`"EVAL"`) branch before any contradiction classification
can fire, and the route prints `"-5"`.  In general every equation whose
difference collapses to a constant — zero or not — is classified as a scalar
evaluation. -/
theorem C1_claim : solveStr "x - x = 5" "x" = .ok (some "-5") ∧
    (∀ (q : ℚ) (v : String), solveEquationE (.num q) v = some (.eval (.num q))) := by
  refine ⟨by decide, fun q v => ?_⟩
  have h : v ∉ freeSymbols (SymExpr.num q) := List.not_mem_nil v
  rw [solveEquationE_eval _ _ h, simplify_num]

/-- C2 counterexample: the program answers `"0"` on `"x - x = 0"`, not
`"x can be any real number"` — the EVAL branch fires first because `x` is
not free in the evaluated difference `0`. -/
theorem C2_counter : solveStr "x - x = 0" "x" = .ok (some "0") ∧
    ("0" : String) ≠ "x can be any real number" :=
  ⟨by decide, by decide⟩

/-- C2: the input `"x - x = 0"` prints `"0"` via the scalar path, because
the auto-evaluated difference no longer contains `x`.  The claimed
`AllReals` classification is reachable only when the target variable is
still free in the (unsimplified) difference, `solve` returns no roots and
the difference simplifies to the constant `0` — for instance on the
identity `"x*(x+1) = x^2 + x"`, whose product is not auto-expanded. -/
theorem C2_claim : solveStr "x - x = 0" "x" = .ok (some "0") ∧
    (∀ (e : SymExpr) (v : String), v ∈ freeSymbols e → sympySolve e v = some [] →
      simplify e = .num 0 → solveEquationE e v = some .allReals) ∧
    solveStr "x*(x+1) = x^2 + x" "x" = .ok (some "x can be any real number") :=
  ⟨by decide, fun e v h1 h2 h3 => solveEquationE_allReals e v h1 h2 h3, by decide⟩

/-- C2 witness: `x^2 + (-1)*x^2` keeps `x` free, solves to no roots and
simplifies to `0`, so it lands in the `AllReals` branch. -/
theorem C2_wit :
    solveEquationE (SymExpr.add (.pow (.sym "x") (.num 2))
      (.mul (.num (-1)) (.pow (.sym "x") (.num 2)))) "x" = some .allReals :=
  C2_claim.2.1 (SymExpr.add (.pow (.sym "x") (.num 2))
      (.mul (.num (-1)) (.pow (.sym "x") (.num 2)))) "x"
    (by decide) (by decide) (by decide)

/-- C3 counterexample: `"x^2 - 4 = 0"` prints `"x = -2 or x = 2"` — the
smaller real part comes first, not the larger one as the claim states. -/
theorem C3_counter : solveStr "x^2 - 4 = 0" "x" = .ok (some "x = -2 or x = 2") ∧
    ("x = -2 or x = 2" : String) ≠ "x = 2 or x = -2" :=
  ⟨by decide, by decide⟩

/-- C3: roots are ordered ascending — smaller real part first, and for equal
real parts the negative-imaginary root first (SymPy `solve` returns
`[-2, 2]` and `[-I, I]`): every root list the solver returns is strictly
sorted by `gaussLt`, and the two examples print with the smaller root
first. -/
theorem C3_claim :
    (∀ (e : SymExpr) (v : String) (rs : List GaussQ),
      sympySolve e v = some rs → List.Chain' gaussLt rs) ∧
    solveStr "x^2 - 4 = 0" "x" = .ok (some "x = -2 or x = 2") ∧
    solveStr "x^2 + 1 = 0" "x" = .ok (some "x = -i or x = i") :=
  ⟨fun e v rs h => sympySolve_sorted e v rs h, by decide, by decide⟩

/-- C3 witness: the root list of `x^2 - 4` is `[-2, 2]` and it is sorted
ascending. -/
theorem C3_wit : List.Chain' gaussLt [((-2 : ℚ), (0 : ℚ)), ((2 : ℚ), (0 : ℚ))] :=
  C3_claim.1 (SymExpr.add (.pow (.sym "x") (.num 2)) (.num (-4))) "x"
    [((-2 : ℚ), (0 : ℚ)), ((2 : ℚ), (0 : ℚ))] (by decide)

/-- C4 counterexample: solving `"y + 5 = 0"` for `y` prints `"x = -5"`,
with the literal letter `x`, not `"y = -5"`. -/
theorem C4_counter : solveStr "y + 5 = 0" "y" = .ok (some "x = -5") ∧
    ("x = -5" : String) ≠ "y = -5" :=
  ⟨by decide, by decide⟩

/-- C4: the formatter does NOT substitute the solved-for variable: the
letter `x` is hard-coded in `format_solutions` — `AllReals` always prints
`"x can be any real number"` and a root always prints `"x = <root>"`,
whatever variable was solved for, as the `"y + 5 = 0"` run shows. -/
theorem C4_claim : formatSolutions .allReals = .ok "x can be any real number" ∧
    (∀ g : GaussQ, formatSolutions (.roots [g]) = .ok ("x = " ++ gaussStr g)) ∧
    solveStr "y + 5 = 0" "y" = .ok (some "x = -5") :=
  ⟨rfl, fun g => format_roots_single g, by decide⟩

/-- C5: a linear equation `a*x + b = c` with `a ≠ 0` has the single root
`(c - b)/a`, and `"2*x + 4 = 10"` prints exactly `"x = 3"`. -/
theorem C5_claim :
    (∀ a b c : ℚ, a ≠ 0 →
      solveEquationE (linEq a b c) "x" = some (.roots [((c - b) / a, 0)])) ∧
    solveStr "2*x + 4 = 10" "x" = .ok (some "x = 3") :=
  ⟨fun a b c ha => solveEquationE_linEq a b c ha, by decide⟩

/-- C5 witness: the general root formula at `a = 2`, `b = 4`, `c = 10`. -/
theorem C5_wit :
    solveEquationE (linEq 2 4 10) "x" = some (.roots [(((10 : ℚ) - 4) / 2, 0)]) :=
  C5_claim.1 2 4 10 (by norm_num)

/-- C6: adjacent operands multiply implicitly — `2x`, `(x+1)(x-1)` and
`3(x+2)` parse to the very trees of `2*x`, `(x+1)*(x-1)` and `3*(x+2)`. -/
theorem C6_claim :
    parseRaw "2x" = .ok (.mul (.num 2) (.var "x")) ∧
    parseRaw "2x" = parseRaw "2*x" ∧
    parseRaw "(x+1)(x-1)" = .ok (.mul (.add (.var "x") (.num 1)) (.sub (.var "x") (.num 1))) ∧
    parseRaw "(x+1)(x-1)" = parseRaw "(x+1)*(x-1)" ∧
    parseRaw "3(x+2)" = .ok (.mul (.num 3) (.add (.var "x") (.num 2))) ∧
    parseRaw "3(x+2)" = parseRaw "3*(x+2)" := by
  refine ⟨?_, ?_, ?_, ?_, ?_, ?_⟩ <;> decide

/-- C7 counterexample: the route answers the second-`=` input with the HTTP
500 server-error message, never a 400 bad-request — the failure is NOT in
the caller-input-problem class. -/
theorem C7_counter :
    solveRoute "1 = 2 = 3" =
      .serverError "Failed to solve equation. Please try a simpler form." ∧
    (∀ m : String, solveRoute "1 = 2 = 3" ≠ .badRequest m) := by
  have h : solveRoute "1 = 2 = 3" =
      .serverError "Failed to solve equation. Please try a simpler form." := by decide
  refine ⟨h, fun m hm => ?_⟩
  rw [h] at hm
  exact ApiResult.noConfusion hm

/-- C7: a second `=` makes one side still contain `=` after
`split("=", 1)`, so `parse_expr` raises a Python `SyntaxError`; that type
is not in the caught tuple `(SympifyError, ValueError, TypeError)`, so the
route returns the 500 "could not solve" class, not the 400 "invalid input"
class the claim expects. -/
theorem C7_claim : parseEquation "1 = 2 = 3" = .error .synErr ∧
    solveRoute "1 = 2 = 3" =
      .serverError "Failed to solve equation. Please try a simpler form." ∧
    caughtAsInvalid .synErr = false ∧ caughtAsInvalid .sympErr = true ∧
    caughtAsInvalid .valErr = true ∧ caughtAsInvalid .typErr = true :=
  ⟨by decide, by decide, rfl, rfl, rfl, rfl⟩

/-- C8 counterexample: the variable-free input `9007199254740993` (the
integer `2^53 + 1`) prints as `"9007199254740992"` — the `float(...)`
round-trip loses the exact value, so the rendered string does not denote
the input integer. -/
theorem C8_counter :
    solveStr "9007199254740993" "x" = .ok (some "9007199254740992") ∧
    ("9007199254740992" : String) ≠ "9007199254740993" :=
  ⟨by decide, by decide⟩

/-- C8: a variable-free expression whose simplified value is an integer of
magnitude at most `2^53` prints as that exact integer without a decimal
point (`int(float(...))` then `str`), the printed form never contains a
`.` character, and `"2 + 2"` prints `"4"`; beyond `2^53` the float
round-trip rounds, so "denotes that same integer value" fails. -/
theorem C8_claim :
    (∀ (E : SymExpr) (v : String) (n : ℤ), v ∉ freeSymbols E →
      toPoly E = some (constP (n : ℚ)) → n.natAbs ≤ 2 ^ 53 →
      (solveEquationE E v).map formatSolutions = some (.ok (intStr n))) ∧
    (∀ z : ℤ, '.' ∉ (intStr z).data) ∧
    solveStr "2 + 2" "x" = .ok (some "4") := by
  refine ⟨fun E v n h1 h2 h3 => ?_, fun z hdot => ?_, by decide⟩
  · rw [solveEquationE_eval E v h1]
    show some (formatSolutions (.eval (simplify E))) = some (Except.ok (intStr n))
    rw [simplify_of_some h2, ofPoly_constP, format_eval_int n h3]
  · rcases intStr_chars z '.' hdot with h | ⟨d, hd, he⟩
    · exact absurd h (by decide)
    · interval_cases d <;> exact absurd he (by decide)

/-- C8 witness: the integer-rendering rule at the constant expression `4`. -/
theorem C8_wit :
    (solveEquationE (SymExpr.num ((4 : ℤ) : ℚ)) "x").map formatSolutions =
      some (.ok (intStr 4)) :=
  C8_claim.1 (SymExpr.num ((4 : ℤ) : ℚ)) "x" 4 (List.not_mem_nil "x") rfl (by decide)

/-- C9: the modelled simplifier (canonical polynomial normalization, the
identity outside the normalizable fragment) is idempotent on every
expression. -/
theorem C9_claim : ∀ e : SymExpr, simplify (simplify e) = simplify e :=
  fun e => simplify_idem e

/-- C10 counterexample: the variable-free input `"10**400"` (7 characters,
inside the 500-character bound) does NOT render as a plain string — the
`float(result)` call overflows (`10^400` rounds beyond `2^1024`), the
`OverflowError` escapes both catch tuples, and the route answers the HTTP
500 server-error message. -/
theorem C10_counter :
    solveStr "10**400" "x" = .error .ovfErr ∧
    solveRoute "10**400" =
      .serverError "Failed to solve equation. Please try a simpler form." :=
  ⟨by decide, by decide⟩

/-- C10: whenever the target variable is not free in the evaluated
difference — other variables allowed, `=` sign allowed — `solve_equation`
takes the evaluation path and returns the simplified expression as a
scalar.  The formatter, however, can error on such a scalar: on an
integer value of magnitude `2 ^ 1024` or more, `float(result)` raises an
uncaught `OverflowError` and the route answers HTTP 500, as the input
`"10**400"` shows.  When no overflow occurs the scalar renders as a plain
string: integers never print as `"No solution exists"`, non-numeric
scalars print via `str`, and solving `"y + 1 = 2"` for `x` prints
`"y - 1"`, which is not `"No solution exists"`. -/
theorem C10_claim :
    (∀ (E : SymExpr) (v : String), v ∉ freeSymbols E →
      solveEquationE E v = some (.eval (simplify E))) ∧
    (∀ n : ℤ, intStr n ≠ "No solution exists") ∧
    (∀ e : SymExpr, floatE e = .typeErr → formatSolutions (.eval e) = .ok (strE e)) ∧
    solveStr "y + 1 = 2" "x" = .ok (some "y - 1") ∧
    ("y - 1" : String) ≠ "No solution exists" ∧
    solveStr "10**400" "x" = .error .ovfErr ∧
    solveRoute "10**400" =
      .serverError "Failed to solve equation. Please try a simpler form." :=
  ⟨fun E v h => solveEquationE_eval E v h, fun n => intStr_ne_noSolution n,
    fun e h => format_eval_typeErr e h, by decide, by decide, by decide, by decide⟩

/-- C10 witness: the evaluation path and the `str` fallback at the
variable-only expression `y`, solved for `x`. -/
theorem C10_wit :
    solveEquationE (SymExpr.sym "y") "x" = some (.eval (simplify (.sym "y"))) ∧
    formatSolutions (.eval (.sym "y")) = .ok (strE (.sym "y")) :=
  ⟨C10_claim.1 (.sym "y") "x" (by decide), C10_claim.2.2.1 (.sym "y") (by decide)⟩

end EqApp
